import Mathlib

set_option maxHeartbeats 1000000

/- Shallow embedding of src/InputYMLFormatter/standardize_kb.py.

   Python values (as produced by yaml.safe_load) are modelled by the inductive
   type Val; Python dicts are association lists with string keys, with dict
   semantics (key order = first insertion, value = last binding) recovered by
   pyItems and pyLookup.  String operations are modelled over the character
   lists of Lean strings; case mapping and whitespace classification follow
   the ASCII fragment of the corresponding Python operations, which covers the
   data this tool processes. -/

inductive Val where
  | null
  | bool (b : Bool)
  | int (n : Int)
  | str (s : String)
  | list (items : List Val)
  | dict (entries : List (String × Val))

/- Character/string helpers shared by the normalizers. -/

def pyIsSpace (c : Char) : Bool :=
  c == ' ' || c == '\t' || c == '\n' || c == '\r' || c == '\x0b' || c == '\x0c'

/- str.strip() with no argument: drop whitespace from both ends. -/
def stripChars (l : List Char) : List Char :=
  ((l.dropWhile pyIsSpace).reverse.dropWhile pyIsSpace).reverse

def pyStrip (s : String) : String := ⟨stripChars s.data⟩

def lowerChars (l : List Char) : List Char := l.map Char.toLower

def pyLower (s : String) : String := ⟨lowerChars s.data⟩

def pyUpper (s : String) : String := ⟨s.data.map Char.toUpper⟩

/- Decimal rendering of a Nat, as Python str(int) does for nonnegative
   numbers.  Fuel-based so that it is structurally recursive; fuel n + 1 is
   always enough for value n. -/
def natToDigitsAux : Nat → Nat → List Char → List Char
  | 0, _, acc => acc
  | fuel + 1, n, acc =>
    if n < 10 then Char.ofNat (48 + n) :: acc
    else natToDigitsAux fuel (n / 10) (Char.ofNat (48 + n % 10) :: acc)

def natStr (n : Nat) : String := ⟨natToDigitsAux (n + 1) n []⟩

/- Python str() of an int (decimal, with a leading minus sign if negative). -/
def intStr (i : Int) : String :=
  match i with
  | .ofNat n => natStr n
  | .negSucc n => ⟨'-' :: (natStr (n + 1)).data⟩

/- Python str() / repr() of a Val.  For lists and dicts, str falls back to
   repr of the elements (as in Python).  repr of a string is modelled without
   quote-escaping (the inputs relevant to the claims never hit that case). -/
mutual
def Val.toStr : Val → String
  | .null => "None"
  | .bool b => if b then "True" else "False"
  | .int n => intStr n
  | .str s => s
  | .list items => "[" ++ String.intercalate ", " (pyReprList items) ++ "]"
  | .dict entries => "\x7b" ++ String.intercalate ", " (pyReprEntries entries) ++ "\x7d"

def Val.pyRepr : Val → String
  | .null => "None"
  | .bool b => if b then "True" else "False"
  | .int n => intStr n
  | .str s => "\x27" ++ s ++ "\x27"
  | .list items => "[" ++ String.intercalate ", " (pyReprList items) ++ "]"
  | .dict entries => "\x7b" ++ String.intercalate ", " (pyReprEntries entries) ++ "\x7d"

def pyReprList : List Val → List String
  | [] => []
  | v :: vs => Val.pyRepr v :: pyReprList vs

def pyReprEntries : List (String × Val) → List String
  | [] => []
  | (k, v) :: rest => ("\x27" ++ k ++ "\x27: " ++ Val.pyRepr v) :: pyReprEntries rest
end

/- Python truthiness of a value. -/
def Val.truthy : Val → Bool
  | .null => false
  | .bool b => b
  | .int n => n != 0
  | .str s => s != ""
  | .list items => !items.isEmpty
  | .dict entries => !entries.isEmpty

/- "x is None" test. -/
def Val.isNull : Val → Bool
  | .null => true
  | _ => false

def Val.isList : Val → Bool
  | .list _ => true
  | _ => false

def Val.isDict : Val → Bool
  | .dict _ => true
  | _ => false

def Val.dictEntries : Val → List (String × Val)
  | .dict entries => entries
  | _ => []

/- Python dict semantics over an association list: value of a key is its last
   binding; iteration order (items) lists keys in first-insertion order. -/
def pyLookup (entries : List (String × Val)) (k : String) : Option Val :=
  ((entries.filter (fun kv => kv.1 == k)).getLast?).map Prod.snd

def pyKeys (entries : List (String × Val)) : List String :=
  entries.foldl (fun acc kv => if acc.contains kv.1 then acc else acc ++ [kv.1]) []

def pyItems (entries : List (String × Val)) : List (String × Val) :=
  (pyKeys entries).filterMap (fun k => (pyLookup entries k).map (fun v => (k, v)))

/- k.lower().strip(), applied to document keys and to aliases alike. -/
def normKey (s : String) : String := pyStrip (pyLower s)

/- lower_map.get(key): the comprehension in _first_value maps each item key
   through normKey, later items overwriting earlier ones on collision. -/
def lowerMapGet (entries : List (String × Val)) (key : String) : Option Val :=
  (((pyItems entries).filter (fun kv => normKey kv.1 == key)).getLast?).map Prod.snd

/- _first_value: first alias whose (case-insensitive, trimmed) key is bound to
   a non-None value; a None binding behaves like an absent key because of the
   "if val is not None" test. -/
def first_value (d : List (String × Val)) : List String → Option Val
  | [] => none
  | k :: keys =>
    match lowerMapGet d (normKey k) with
    | some v => if v.isNull then first_value d keys else some v
    | none => first_value d keys

/- Canonical value sets.  VALID_DIFFICULTIES and VALID_EXAMS are Python sets;
   they are modelled as lists because the code only tests membership or scans
   for a match, and at most one element can ever match (the candidates are
   pairwise distinct case-insensitively), so iteration order is irrelevant. -/
def VALID_DIFFICULTIES : List String := ["Easy", "Medium", "Hard"]
def VALID_EXAMS : List String := ["Core", "DataEngineer", "DataAnalyst", "Architect"]
def OPTION_LABELS : List String :=
  ["option A", "option B", "option C", "option D", "option E"]

/- str.capitalize(): first character upper-cased, the rest lower-cased. -/
def capitalizeChars : List Char → List Char
  | [] => []
  | c :: cs => c.toUpper :: lowerChars cs

def normalize_difficulty (raw : Val) : String :=
  if !raw.truthy then "Medium"
  else
    let r := capitalizeChars (stripChars (Val.toStr raw).data)
    match VALID_DIFFICULTIES.find? (fun d => (lowerChars d.data).isPrefixOf (lowerChars r)) with
    | some d => d
    | none => "Medium"

/- str.split(","): split on every comma, keeping empty parts. -/
def splitComma : List Char → List (List Char)
  | [] => [[]]
  | c :: rest =>
    if c == ',' then [] :: splitComma rest
    else
      match splitComma rest with
      | p :: ps => (c :: p) :: ps
      | [] => [[c]]

def normalize_exam (raw : Val) : String :=
  if !raw.truthy then "Core"
  else
    let tags :=
      match raw with
      | .list items => items.map (fun t => pyStrip (Val.toStr t))
      | _ => (splitComma (Val.toStr raw).data).map (fun p => (⟨stripChars p⟩ : String))
    let normalized := tags.filterMap (fun tag => VALID_EXAMS.find? (fun e => pyLower e == pyLower tag))
    if normalized.isEmpty then "Core" else String.intercalate ", " normalized

/- re.sub(r'\s+', '', s): delete all whitespace. -/
def removeWs (l : List Char) : List Char := l.filter (fun c => !pyIsSpace c)

/- str.replace("option", ""): remove every occurrence, scanning left to
   right (applied after lower-casing, so only the lowercase word occurs). -/
def removeOptionSub : List Char → List Char
  | 'o' :: 'p' :: 't' :: 'i' :: 'o' :: 'n' :: rest => removeOptionSub rest
  | c :: rest => c :: removeOptionSub rest
  | [] => []

def cleanOptKey (k : String) : String :=
  ⟨removeOptionSub (removeWs (lowerChars k.data))⟩

/- str.split() with no argument: split on whitespace runs, dropping empties. -/
def splitWsAux : List Char → List Char → List (List Char)
  | acc, [] => if acc.isEmpty then [] else [acc.reverse]
  | acc, c :: rest =>
    if pyIsSpace c then
      if acc.isEmpty then splitWsAux [] rest else acc.reverse :: splitWsAux [] rest
    else splitWsAux (c :: acc) rest

def splitWs (l : List Char) : List (List Char) := splitWsAux [] l

/- label.split()[-1], as used on the (never-empty) option labels and on the
   matched answer parts; the [] default is unreachable at those call sites. -/
def lastWord (s : String) : String := ⟨(splitWs s.data).getLastD []⟩

def normalize_options (raw_options : Val) : List (String × String) :=
  match raw_options with
  | .dict entries =>
    let items := pyItems entries
    let keyMapGet := fun (letter : String) =>
      ((items.filter (fun kv => cleanOptKey kv.1 == letter)).getLast?).map Prod.snd
    OPTION_LABELS.filterMap (fun label =>
      let letter := pyLower (lastWord label)
      (keyMapGet letter).map (fun v => (label, pyStrip (Val.toStr v))))
  | .list items =>
    (OPTION_LABELS.zip (items.take 5)).map (fun p => (p.1, pyStrip (Val.toStr p.2)))
  | _ => []

/- [A-Ea-e] character class. -/
def optLetter (c : Char) : Bool :=
  ('A' ≤ c && c ≤ 'E') || ('a' ≤ c && c ≤ 'e')

/- Case-insensitive literal match: consume the (lowercase) pattern from the
   front of the input, returning the rest. -/
def matchCI : List Char → List Char → Option (List Char)
  | [], l => some l
  | _ :: _, [] => none
  | p :: ps, c :: cs => if c.toLower == p then matchCI ps cs else none

def optionSpace : List Char := "option ".data

def matchOptItem (l : List Char) : Option (List Char) :=
  match matchCI optionSpace l with
  | some (c :: rest) => if optLetter c then some rest else none
  | _ => none

def fullOptItem (l : List Char) : Bool :=
  match matchOptItem l with
  | some [] => true
  | _ => false

/- re.fullmatch(r'option [A-Ea-e](,\s*option [A-Ea-e])*', raw, re.I).
   Because the repeated item contains no comma, the full match is equivalent
   to: split on commas, the first part is exactly an item, and every later
   part is an item after dropping leading whitespace. -/
def isCanonicalAnswer (l : List Char) : Bool :=
  match splitComma l with
  | [] => false
  | p :: ps => fullOptItem p && ps.all (fun q => fullOptItem (q.dropWhile pyIsSpace))

/- The canonical-answer rebuild: parts = raw.split(","), then
   "option " + part.split()[-1].upper() joined with ", ". -/
def canonicalizeAnswerParts (l : List Char) : String :=
  let parts := (splitComma l).map (fun p => (⟨stripChars p⟩ : String))
  String.intercalate ", " (parts.map (fun p => "option " ++ pyUpper (lastWord p)))

def bareLetterChk (l : List Char) : Bool :=
  match l with
  | [c] => optLetter c
  | _ => false

/- re.search(r'option\s*([A-Ea-e])', raw, re.I): scan for the leftmost
   position where "option" matches case-insensitively and, after greedily
   skipping whitespace, a letter A-E follows (backtracking into the
   whitespace cannot help, since whitespace is not in the letter class). -/
def searchOptionLetter : List Char → Option Char
  | [] => none
  | c :: rest =>
    match matchCI ("option".data) (c :: rest) with
    | some rem =>
      match rem.dropWhile pyIsSpace with
      | c2 :: _ => if optLetter c2 then some c2 else searchOptionLetter rest
      | [] => searchOptionLetter rest
    | none => searchOptionLetter rest

mutual
def normalize_answer : Val → String
  | .list [] => ""
  | .list (v :: vs) => String.intercalate ", " (normalizeAnswerList (v :: vs))
  | v =>
    if !v.truthy then ""
    else
      let raw := stripChars (Val.toStr v).data
      if isCanonicalAnswer raw then canonicalizeAnswerParts raw
      else if bareLetterChk raw then "option " ++ pyUpper ⟨raw⟩
      else
        match searchOptionLetter raw with
        | some c => "option " ++ (⟨[c.toUpper]⟩ : String)
        | none => ⟨raw⟩

def normalizeAnswerList : List Val → List String
  | [] => []
  | v :: vs => normalize_answer v :: normalizeAnswerList vs
end

def digitsVal (l : List Char) : Nat :=
  l.foldl (fun acc c => acc * 10 + (c.toNat - 48)) 0

/- int(s) on a string: strip whitespace, optional sign, decimal digits;
   None models the ValueError.  (Python additionally accepts underscore
   digit grouping and non-ASCII digits; those are not modelled.) -/
def pyInt? (s : String) : Option Int :=
  let parseDigits : List Char → Option Nat := fun ds =>
    if !ds.isEmpty && ds.all Char.isDigit then some (digitsVal ds) else none
  match stripChars s.data with
  | [] => none
  | c :: ds =>
    if c == '-' then (parseDigits ds).map (fun n => -(n : Int))
    else if c == '+' then (parseDigits ds).map (fun n => (n : Int))
    else (parseDigits (c :: ds)).map (fun n => (n : Int))

/- str.zfill(width): left-pad with zeros to the given width, inserting the
   zeros after a leading sign character. -/
def zfill (width : Nat) (s : String) : String :=
  if width ≤ s.data.length then s
  else
    match s.data with
    | c :: rest =>
      if c == '+' || c == '-' then
        ⟨c :: (List.replicate (width - s.data.length) '0' ++ rest)⟩
      else ⟨List.replicate (width - s.data.length) '0' ++ s.data⟩
    | [] => ⟨List.replicate width '0'⟩

/- s.lstrip("0") or "0". -/
def lstripZerosOr0 (l : List Char) : List Char :=
  let t := l.dropWhile (fun c => c == '0')
  if t.isEmpty then ['0'] else t

/- The int(...) step of pad_question_no: parse the stripped value after
   removing leading zeros (empty falling back to "0"). -/
def padNum (n : Val) : Option Int :=
  pyInt? ⟨lstripZerosOr0 (stripChars (Val.toStr n).data)⟩

def pad_question_no (n : Val) : String :=
  match padNum n with
  | some i => zfill 3 (intStr i)
  | none => ⟨stripChars (Val.toStr n).data⟩

/- Alias priority lists. -/
def TOPIC_KEYS : List String := ["Topic Name", "topic name", "Topic", "topic"]
def SUBTOPIC_KEYS : List String :=
  ["Sub Topic Name", "sub topic name", "Sub Topic", "subtopic", "sub_topic"]
def TOTAL_KEYS : List String :=
  ["Total Question Count", "total question count", "total_questions", "question_count"]
def QUESTIONS_KEYS : List String := ["all questions", "all_questions", "questions", "Questions"]
def Q_NO_KEYS : List String := ["Question No", "question no", "question_no", "Q No", "id"]
def Q_TEXT_KEYS : List String := ["question", "Question", "q", "Q"]
def Q_OPTIONS_KEYS : List String := ["their_options", "their options", "options", "Options"]
def Q_ANSWER_KEYS : List String :=
  ["correct Answer", "correct answer", "correct_answer", "answer", "Answer"]
def Q_EXPL_KEYS : List String := ["explanation", "Explanation"]
def Q_DIFF_KEYS : List String := ["difficulty level", "difficulty_level", "difficulty", "Difficulty"]
def Q_TOPIC_KEYS : List String := ["topic", "Topic"]
def Q_SUBTOPIC_KEYS : List String := ["sub topic", "sub_topic", "subtopic", "Sub Topic"]
def Q_EXAM_KEYS : List String := ["exam", "Exam", "exams", "Exams"]

/- The canonical question dict, with one field per output key
   (Question No, question, their_options, correct Answer, explanation,
   difficulty level, topic, sub topic, exam). -/
structure CanonicalQuestion where
  questionNo : String
  question : String
  theirOptions : List (String × String)
  correctAnswer : String
  explanation : String
  difficultyLevel : String
  topic : String
  subTopic : String
  exam : String
deriving DecidableEq

/- The two ways the transform can blow up in Python: the explicit ValueError
   raised by standardize, and the AttributeError raised when a question
   record is not a dict (str/list/int/None have no .items method). -/
inductive PyErr where
  | valueError (msg : String)
  | attributeError (attr : String)
deriving DecidableEq

structure CanonicalKB where
  topicName : String
  subTopicName : String
  totalQuestionCount : Nat
  questions : List CanonicalQuestion
deriving DecidableEq

/- Python "x or default" over resolver results: an absent field or a falsy
   value both fall back to the default. -/
def orDefault (o : Option Val) (dflt : Val) : Val :=
  match o with
  | some v => if v.truthy then v else dflt
  | none => dflt

def optToVal : Option Val → Val
  | some v => v
  | none => Val.null

/- str(x).strip(). -/
def stripStr (v : Val) : String := ⟨stripChars (Val.toStr v).data⟩

def standardize_question_core (raw_q : List (String × Val)) (idx : Nat) : CanonicalQuestion :=
  let q_no := pad_question_no (orDefault (first_value raw_q Q_NO_KEYS) (Val.str (natStr (idx + 1))))
  { questionNo := "\"" ++ q_no ++ "\"",
    question := stripStr (orDefault (first_value raw_q Q_TEXT_KEYS) (Val.str "")),
    theirOptions := normalize_options (orDefault (first_value raw_q Q_OPTIONS_KEYS) (Val.dict [])),
    correctAnswer := normalize_answer (optToVal (first_value raw_q Q_ANSWER_KEYS)),
    explanation := stripStr (orDefault (first_value raw_q Q_EXPL_KEYS) (Val.str "")),
    difficultyLevel := normalize_difficulty (optToVal (first_value raw_q Q_DIFF_KEYS)),
    topic := stripStr (orDefault (first_value raw_q Q_TOPIC_KEYS) (Val.str "")),
    subTopic := stripStr (orDefault (first_value raw_q Q_SUBTOPIC_KEYS) (Val.str "")),
    exam := normalize_exam (optToVal (first_value raw_q Q_EXAM_KEYS)) }

def standardize_question (raw_q : Val) (idx : Nat) : Except PyErr CanonicalQuestion :=
  match raw_q with
  | .dict kvs => .ok (standardize_question_core kvs idx)
  | _ => .error (.attributeError "items")

def questionsResolved (data : List (String × Val)) : Val :=
  orDefault (first_value data QUESTIONS_KEYS) (Val.list [])

def structuralErrorMsg : String := "Could not find a list of questions in the input file."

def standardize (data : List (String × Val)) : Except PyErr CanonicalKB :=
  let topic := orDefault (first_value data TOPIC_KEYS) (Val.str "Unknown Topic")
  let subtopic := orDefault (first_value data SUBTOPIC_KEYS) (Val.str "")
  match questionsResolved data with
  | .list qs =>
    match qs.enum.mapM (fun p => standardize_question p.2 p.1) with
    | .ok questions =>
      .ok { topicName := stripStr topic, subTopicName := stripStr subtopic,
            totalQuestionCount := questions.length, questions := questions }
    | .error e => .error e
  | _ => .error (.valueError structuralErrorMsg)

/- The body of the validate loop, with its four per-question checks in
   source order. -/
def validateStep (issues : List String) (q : CanonicalQuestion) : List String :=
  let issues :=
    if q.question == "" then issues ++ ["Q" ++ q.questionNo ++ ": missing question text"]
    else issues
  let issues :=
    if q.theirOptions.isEmpty then issues ++ ["Q" ++ q.questionNo ++ ": no options found"]
    else issues
  let issues :=
    if q.correctAnswer == "" then issues ++ ["Q" ++ q.questionNo ++ ": missing correct answer"]
    else issues
  if !(VALID_DIFFICULTIES.contains q.difficultyLevel) then
    issues ++ ["Q" ++ q.questionNo ++ ": invalid difficulty \x27" ++ q.difficultyLevel ++ "\x27"]
  else issues

def validate (std : CanonicalKB) : List String :=
  std.questions.foldl validateStep []

/- The issues contributed by one question, in check order; validate is the
   concatenation of these lists over the questions. -/
def questionIssues (q : CanonicalQuestion) : List String :=
  (if q.question == "" then ["Q" ++ q.questionNo ++ ": missing question text"] else []) ++
  (if q.theirOptions.isEmpty then ["Q" ++ q.questionNo ++ ": no options found"] else []) ++
  (if q.correctAnswer == "" then ["Q" ++ q.questionNo ++ ": missing correct answer"] else []) ++
  (if !(VALID_DIFFICULTIES.contains q.difficultyLevel) then
    ["Q" ++ q.questionNo ++ ": invalid difficulty \x27" ++ q.difficultyLevel ++ "\x27"]
  else [])

/- validate with the difficulty branch removed; used to state that the
   invalid-difficulty branch is unreachable on transform output. -/
def validateNoDiffStep (issues : List String) (q : CanonicalQuestion) : List String :=
  let issues :=
    if q.question == "" then issues ++ ["Q" ++ q.questionNo ++ ": missing question text"]
    else issues
  let issues :=
    if q.theirOptions.isEmpty then issues ++ ["Q" ++ q.questionNo ++ ": no options found"]
    else issues
  if q.correctAnswer == "" then issues ++ ["Q" ++ q.questionNo ++ ": missing correct answer"]
  else issues

def validateNoDiff (std : CanonicalKB) : List String :=
  std.questions.foldl validateNoDiffStep []

/- The hit produced by one alias against one document: the last binding whose
   normalized key equals the normalized alias, provided it is not null. -/
def aliasHit (d : List (String × Val)) (k : String) : Option Val :=
  match lowerMapGet d (normKey k) with
  | some v => if v.isNull then none else some v
  | none => none

/- Full-string test for the shape: "option", optional whitespace, letter A-E
   (the second literal shape named by the spec, read as covering the whole
   string).  The code itself never performs this full-string test; it uses
   re.search, which also fires on proper substrings. -/
def fullOptWsLetter (l : List Char) : Bool :=
  match matchCI ("option".data) l with
  | some rem =>
    match rem.dropWhile pyIsSpace with
    | [c] => optLetter c
    | _ => false
  | none => false

/- A fully canonical input document (canonical field names, canonical value
   shapes) with one question whose id is "007"; used to examine idempotence. -/
def canonicalOneQuestionDoc : List (String × Val) :=
  [("Topic Name", Val.str "Snowflake"),
   ("Sub Topic Name", Val.str ""),
   ("Total Question Count", Val.int 1),
   ("all questions", Val.list [Val.dict
     [("Question No", Val.str "007"),
      ("question", Val.str "What?"),
      ("their_options", Val.dict [("option A", Val.str "x"), ("option B", Val.str "y")]),
      ("correct Answer", Val.str "option A"),
      ("explanation", Val.str "Because."),
      ("difficulty level", Val.str "Easy"),
      ("topic", Val.str "T"),
      ("sub topic", Val.str "S"),
      ("exam", Val.str "Core")]])]

/- The processed difficulty input: str(raw).strip().capitalize(), then
   lower-cased for the case-insensitive comparison. -/
def processedDifficulty (v : Val) : List Char :=
  lowerChars (capitalizeChars (stripChars (Val.toStr v).data))

/- Declarative reading of the canonical-answer regular expression
   r'option [A-Ea-e](,\s*option [A-Ea-e])*' (case-insensitive): the character
   list is a nonempty comma-separated sequence of items, each item being
   seven characters that lower-case to "option " followed by one letter A-E,
   with arbitrary whitespace after each comma.  The second index collects the
   letters of the items in order. -/
inductive CanonLettersP : List Char → List Char → Prop where
  | single (w : List Char) (c : Char) :
      w.map Char.toLower = optionSpace → optLetter c = true →
      CanonLettersP (w ++ [c]) [c]
  | more (w : List Char) (c : Char) (ws rest cs : List Char) :
      w.map Char.toLower = optionSpace → optLetter c = true →
      (∀ x ∈ ws, pyIsSpace x = true) → CanonLettersP rest cs →
      CanonLettersP (w ++ [c] ++ ',' :: ws ++ rest) (c :: cs)

/- Source data of one already-canonical question, used to state the
   idempotence property: the five options as optional values, the answer as
   its list of (canonical, upper-case) letters, the exam as its list of
   canonical tags. -/
structure CanonQData where
  qid : String
  text : String
  optA : Option String
  optB : Option String
  optC : Option String
  optD : Option String
  optE : Option String
  answerLetters : List Char
  expl : String
  diff : String
  qtopic : String
  qsub : String
  examTags : List String

def optPairs (d : CanonQData) : List (String × String) :=
  ([("option A", d.optA), ("option B", d.optB), ("option C", d.optC),
    ("option D", d.optD), ("option E", d.optE)].filterMap
    (fun p => p.2.map (fun v => (p.1, v))))

def ansStr (d : CanonQData) : String :=
  String.intercalate ", " (d.answerLetters.map (fun c => "option " ++ (⟨[c]⟩ : String)))

def examStr (d : CanonQData) : String := String.intercalate ", " d.examTags

/- The canonical question document (canonical field names, canonical value
   shapes). -/
def mkCanonQVal (d : CanonQData) : Val :=
  Val.dict [("Question No", Val.str d.qid), ("question", Val.str d.text),
    ("their_options", Val.dict ((optPairs d).map (fun p => (p.1, Val.str p.2)))),
    ("correct Answer", Val.str (ansStr d)), ("explanation", Val.str d.expl),
    ("difficulty level", Val.str d.diff), ("topic", Val.str d.qtopic),
    ("sub topic", Val.str d.qsub), ("exam", Val.str (examStr d))]

/- The transform output expected for a canonical question: every field is
   reproduced except the id, which is wrapped in literal double quotes. -/
def expectedQ (d : CanonQData) : CanonicalQuestion :=
  { questionNo := "\"" ++ d.qid ++ "\"", question := d.text,
    theirOptions := optPairs d, correctAnswer := ansStr d, explanation := d.expl,
    difficultyLevel := d.diff, topic := d.qtopic, subTopic := d.qsub,
    exam := examStr d }

/- The canonical top-level document. -/
def mkCanonDoc (topic sub : String) (qs : List CanonQData) : List (String × Val) :=
  [("Topic Name", Val.str topic), ("Sub Topic Name", Val.str sub),
   ("Total Question Count", Val.int qs.length),
   ("all questions", Val.list (qs.map mkCanonQVal))]

/- Canonical value shapes for one question: a zero-padded 3-digit id, trimmed
   text fields, trimmed option values, upper-case canonical answer letters, a
   canonical difficulty and nonempty canonical exam tags. -/
def GoodQ (d : CanonQData) : Prop :=
  (∃ n : Nat, n < 1000 ∧ d.qid = zfill 3 (intStr (Int.ofNat n))) ∧
  pyStrip d.text = d.text ∧
  pyStrip d.expl = d.expl ∧
  pyStrip d.qtopic = d.qtopic ∧
  pyStrip d.qsub = d.qsub ∧
  (∀ v, d.optA = some v → pyStrip v = v) ∧
  (∀ v, d.optB = some v → pyStrip v = v) ∧
  (∀ v, d.optC = some v → pyStrip v = v) ∧
  (∀ v, d.optD = some v → pyStrip v = v) ∧
  (∀ v, d.optE = some v → pyStrip v = v) ∧
  (∀ c ∈ d.answerLetters, c ∈ (['A', 'B', 'C', 'D', 'E'] : List Char)) ∧
  d.diff ∈ VALID_DIFFICULTIES ∧
  d.examTags ≠ [] ∧ (∀ t ∈ d.examTags, t ∈ VALID_EXAMS)

/- ------------------------------------------------------------------ -/
/- Theorems.                                                           -/
/- ------------------------------------------------------------------ -/

/-- C1 counterexample: the claim says that whenever the resolved questions
field is present but not a list (e.g. a scalar number), standardize raises
the structural error.  For the document with questions bound to the number 0
the field is present and resolves (first_value returns it), it is not a list,
yet standardize succeeds: the falsy value is silently replaced by the empty
list default by the "or []" step, so no error is raised. -/
theorem claim_c1_counterexample :
    (first_value [("questions", Val.int 0)] QUESTIONS_KEYS).isSome = true ∧
    (Val.int 0).isList = false ∧
    standardize [("questions", Val.int 0)] =
      Except.ok { topicName := "Unknown Topic", subTopicName := "",
                  totalQuestionCount := 0, questions := [] } :=
  ⟨rfl, rfl, rfl⟩

/-- C2 counterexample: standardize is not idempotent in the claimed
value-equal sense.  On a fully canonical one-question document whose id field
is the canonical zero-padded string "007", the produced question stores the id
wrapped in literal double-quote characters, so that field value changes. -/
theorem claim_c2_counterexample :
    standardize canonicalOneQuestionDoc =
      Except.ok { topicName := "Snowflake", subTopicName := "",
                  totalQuestionCount := 1,
                  questions := [{ questionNo := "\"007\"", question := "What?",
                                  theirOptions := [("option A", "x"), ("option B", "y")],
                                  correctAnswer := "option A", explanation := "Because.",
                                  difficultyLevel := "Easy", topic := "T",
                                  subTopic := "S", exam := "Core" }] } ∧
    ("\"007\"" : String) ≠ "007" :=
  ⟨rfl, by decide⟩

/-- C3 counterexample: the claim says standardize returns a canonical
knowledge base for every document whose questions field is list-typed.  But a
list containing a non-mapping element (here the number 5) makes the per
question resolver call .items() on a non-dict, so the transform fails with an
attribute error instead of returning a knowledge base. -/
theorem claim_c3_counterexample :
    (questionsResolved [("questions", Val.list [Val.int 5])]).isList = true ∧
    standardize [("questions", Val.list [Val.int 5])] =
      Except.error (PyErr.attributeError "items") :=
  ⟨rfl, rfl⟩

/-- C4 counterexample: the id of a produced question is not always a
three-character digit string.  For the question whose id field is "abc",
pad_question_no passes the non-numeric value through and the stored field is
the five-character quoted string. -/
theorem claim_c4_counterexample :
    standardize [("all questions", Val.list [Val.dict [("id", Val.str "abc")]])] =
      Except.ok { topicName := "Unknown Topic", subTopicName := "",
                  totalQuestionCount := 1,
                  questions := [{ questionNo := "\"abc\"", question := "",
                                  theirOptions := [], correctAnswer := "",
                                  explanation := "", difficultyLevel := "Medium",
                                  topic := "", subTopic := "", exam := "Core" }] } ∧
    ¬ (("\"abc\"" : String).data.length = 3 ∧
       (("\"abc\"" : String).data.all Char.isDigit) = true) :=
  ⟨rfl, by decide⟩

/-- C5 counterexample: the claim says normalize_difficulty returns D whenever
the processed input is a case-insensitive prefix of the canonical value D.
The processed form of "E" is "E", which is a case-insensitive prefix of
"Easy", so the claim requires the result "Easy"; the code instead tests
whether the processed input STARTS WITH the canonical value and returns the
default "Medium". -/
theorem claim_c5_counterexample :
    (lowerChars (capitalizeChars (stripChars ("E" : String).data))).isPrefixOf
        (lowerChars ("Easy" : String).data) = true ∧
    normalize_difficulty (Val.str "E") = "Medium" :=
  ⟨rfl, rfl⟩

/-- C6 counterexample: the claim says a present key with a falsy value is
still returned (absence distinct from present-but-falsy).  A key bound to
null (Python None, the canonical falsy value, produced by YAML empty values)
is present in the document, yet the resolver skips it and reports absence. -/
theorem claim_c6_counterexample :
    pyLookup [("id", Val.null)] "id" = some Val.null ∧
    first_value [("id", Val.null)] ["id"] = none :=
  ⟨rfl, rfl⟩

/-- C7 counterexample: the claim says the first question without a resolvable
id receives the padded form of positional index 0, which is "000".  The code
falls back to str(idx + 1), so the first such question receives "001"
(stored quote-wrapped). -/
theorem claim_c7_counterexample :
    standardize [("questions", Val.list [Val.dict []])] =
      Except.ok { topicName := "Unknown Topic", subTopicName := "",
                  totalQuestionCount := 1,
                  questions := [{ questionNo := "\"001\"", question := "",
                                  theirOptions := [], correctAnswer := "",
                                  explanation := "", difficultyLevel := "Medium",
                                  topic := "", subTopic := "", exam := "Core" }] } ∧
    ("\"001\"" : String) ≠ "\"000\"" :=
  ⟨rfl, by decide⟩

/-- C8 counterexample: the input "see optionB" matches none of the three
claimed literal shapes as a whole string (not a bare letter, not a full
"option"-whitespace-letter string, not a canonical comma-joined list), so the
claim requires it to be returned verbatim; but normalize_answer canonicalizes
it to "option B", because the third shape is located by re.search anywhere
inside the string. -/
theorem claim_c8_counterexample :
    bareLetterChk (stripChars ("see optionB" : String).data) = false ∧
    fullOptWsLetter (stripChars ("see optionB" : String).data) = false ∧
    isCanonicalAnswer (stripChars ("see optionB" : String).data) = false ∧
    bareLetterChk ("see optionB" : String).data = false ∧
    fullOptWsLetter ("see optionB" : String).data = false ∧
    isCanonicalAnswer ("see optionB" : String).data = false ∧
    normalize_answer (Val.str "see optionB") = "option B" ∧
    ("option B" : String) ≠ "see optionB" :=
  ⟨rfl, rfl, rfl, rfl, rfl, rfl, rfl, by decide⟩

/- Two lists starting with different characters cannot both be prefixes of
   the same list. -/
theorem prefix_head_exclusive {a b : Char} {la lb r : List Char} (hab : a ≠ b)
    (h1 : (a :: la).isPrefixOf r = true) (h2 : (b :: lb).isPrefixOf r = true) : False := by
  cases r with
  | nil => simp [List.isPrefixOf] at h1
  | cons c cs =>
    simp only [List.isPrefixOf, Bool.and_eq_true, beq_iff_eq] at h1 h2
    exact hab (h1.1.trans h2.1.symm)

/- The difficulty normalizer can only produce the three canonical values. -/
theorem normalize_difficulty_mem (v : Val) :
    normalize_difficulty v = "Easy" ∨ normalize_difficulty v = "Medium" ∨
      normalize_difficulty v = "Hard" := by
  unfold normalize_difficulty
  cases hv : (!v.truthy) with
  | true => simp
  | false =>
    simp only [if_neg (by simp [hv] : ¬((!v.truthy) = true))]
    cases hf : VALID_DIFFICULTIES.find?
        (fun d => (lowerChars d.data).isPrefixOf
          (lowerChars (capitalizeChars (stripChars (Val.toStr v).data)))) with
    | none => simp
    | some d =>
      have hd := List.mem_of_find?_eq_some hf
      simp [VALID_DIFFICULTIES] at hd
      rcases hd with h | h | h <;> simp [h]

/- On truthy input, normalize_difficulty performs the three startswith tests
   in order. -/
theorem normalize_difficulty_characterization (v : Val) (hv : v.truthy = true) :
    normalize_difficulty v =
      (if (lowerChars ("Easy" : String).data).isPrefixOf (processedDifficulty v) = true then "Easy"
       else if (lowerChars ("Medium" : String).data).isPrefixOf (processedDifficulty v) = true then
         "Medium"
       else if (lowerChars ("Hard" : String).data).isPrefixOf (processedDifficulty v) = true then
         "Hard"
       else "Medium") := by
  unfold normalize_difficulty processedDifficulty VALID_DIFFICULTIES
  simp only [hv, Bool.not_true, Bool.false_eq_true, if_false]
  simp only [List.find?]
  cases hE : (lowerChars ("Easy" : String).data).isPrefixOf
      (lowerChars (capitalizeChars (stripChars (Val.toStr v).data))) <;>
    cases hM : (lowerChars ("Medium" : String).data).isPrefixOf
      (lowerChars (capitalizeChars (stripChars (Val.toStr v).data))) <;>
    cases hH : (lowerChars ("Hard" : String).data).isPrefixOf
      (lowerChars (capitalizeChars (stripChars (Val.toStr v).data))) <;>
    simp [hE, hM, hH]

/-- C5 (amended): normalize_difficulty is total and always returns one of
Easy, Medium, Hard; absent or falsy input gives "Medium"; otherwise the raw
value is trimmed and capitalized and the canonical value D is returned
exactly when D is a case-insensitive prefix of the processed input (i.e. the
processed input starts with D), with "Medium" when no canonical value matches
this way.  (The direction of the prefix test is the opposite of the one the
claim states.) -/
theorem claim_c5_amended (v : Val) :
    (normalize_difficulty v = "Easy" ∨ normalize_difficulty v = "Medium" ∨
      normalize_difficulty v = "Hard") ∧
    (v.truthy = false → normalize_difficulty v = "Medium") ∧
    (v.truthy = true →
      ((lowerChars ("Easy" : String).data).isPrefixOf (processedDifficulty v) = true →
        normalize_difficulty v = "Easy") ∧
      ((lowerChars ("Medium" : String).data).isPrefixOf (processedDifficulty v) = true →
        normalize_difficulty v = "Medium") ∧
      ((lowerChars ("Hard" : String).data).isPrefixOf (processedDifficulty v) = true →
        normalize_difficulty v = "Hard") ∧
      ((lowerChars ("Easy" : String).data).isPrefixOf (processedDifficulty v) = false →
        (lowerChars ("Medium" : String).data).isPrefixOf (processedDifficulty v) = false →
        (lowerChars ("Hard" : String).data).isPrefixOf (processedDifficulty v) = false →
        normalize_difficulty v = "Medium")) := by
  refine ⟨normalize_difficulty_mem v, ?_, ?_⟩
  · intro hv
    simp [normalize_difficulty, hv]
  · intro hv
    have hEe : lowerChars ("Easy" : String).data = 'e' :: ['a', 's', 'y'] := rfl
    have hMm : lowerChars ("Medium" : String).data = 'm' :: ['e', 'd', 'i', 'u', 'm'] := rfl
    refine ⟨?_, ?_, ?_, ?_⟩
    · intro hE
      rw [normalize_difficulty_characterization v hv]
      simp [hE]
    · intro hM
      have hE : (lowerChars ("Easy" : String).data).isPrefixOf (processedDifficulty v) = false := by
        cases h : (lowerChars ("Easy" : String).data).isPrefixOf (processedDifficulty v)
        · rfl
        · rw [hEe] at h
          rw [hMm] at hM
          exact (prefix_head_exclusive (by decide) h hM).elim
      rw [normalize_difficulty_characterization v hv]
      simp [hE, hM]
    · intro hH
      have hE : (lowerChars ("Easy" : String).data).isPrefixOf (processedDifficulty v) = false := by
        cases h : (lowerChars ("Easy" : String).data).isPrefixOf (processedDifficulty v)
        · rfl
        · rw [hEe] at h
          rw [show lowerChars ("Hard" : String).data = 'h' :: ['a', 'r', 'd'] from rfl] at hH
          exact (prefix_head_exclusive (by decide) h hH).elim
      have hM : (lowerChars ("Medium" : String).data).isPrefixOf (processedDifficulty v) = false := by
        cases h : (lowerChars ("Medium" : String).data).isPrefixOf (processedDifficulty v)
        · rfl
        · rw [hMm] at h
          rw [show lowerChars ("Hard" : String).data = 'h' :: ['a', 'r', 'd'] from rfl] at hH
          exact (prefix_head_exclusive (by decide) h hH).elim
      rw [normalize_difficulty_characterization v hv]
      simp [hE, hM, hH]
    · intro hE hM hH
      rw [normalize_difficulty_characterization v hv]
      simp [hE, hM, hH]

/-- C5 witness: the amended characterization applied at the concrete input
"hardCORE x", whose processed form starts with "Hard". -/
theorem claim_c5_witness : normalize_difficulty (Val.str "hardCORE x") = "Hard" :=
  ((claim_c5_amended (Val.str "hardCORE x")).2.2 rfl).2.2.1 rfl

/- If every alias misses (no non-null binding), the resolver reports
   absence. -/
theorem first_value_none (d : List (String × Val)) :
    ∀ ks : List String, (∀ k ∈ ks, aliasHit d k = none) → first_value d ks = none := by
  intro ks
  induction ks with
  | nil => intro _; rfl
  | cons k keys ih =>
    intro h
    have hk := h k (List.mem_cons_self _ _)
    simp only [aliasHit] at hk
    simp only [first_value]
    cases hm : lowerMapGet d (normKey k) with
    | none =>
      dsimp only
      exact ih (fun k2 hk2 => h k2 (List.mem_cons_of_mem _ hk2))
    | some w =>
      rw [hm] at hk
      dsimp only at hk ⊢
      cases hn : w.isNull with
      | true =>
        simp only [hn, if_true]
        exact ih (fun k2 hk2 => h k2 (List.mem_cons_of_mem _ hk2))
      | false => simp only [hn] at hk; simp at hk

/- The resolver returns the hit of the first alias (in priority order) that
   has a non-null binding. -/
theorem first_value_hit (d : List (String × Val)) :
    ∀ (ks1 : List String) (k : String) (ks2 : List String) (v : Val),
      (∀ k2 ∈ ks1, aliasHit d k2 = none) → aliasHit d k = some v →
      first_value d (ks1 ++ k :: ks2) = some v := by
  intro ks1
  induction ks1 with
  | nil =>
    intro k ks2 v _ hk
    simp only [aliasHit] at hk
    simp only [List.nil_append, first_value]
    cases hm : lowerMapGet d (normKey k) with
    | none => rw [hm] at hk; cases hk
    | some w =>
      rw [hm] at hk
      dsimp only at hk ⊢
      cases hn : w.isNull with
      | true => simp only [hn] at hk; simp at hk
      | false =>
        simp only [hn] at hk
        simp at hk
        simp [hn, hk]
  | cons a rest ih =>
    intro k ks2 v hnone hk
    have ha := hnone a (List.mem_cons_self _ _)
    simp only [aliasHit] at ha
    simp only [List.cons_append, first_value]
    cases hm : lowerMapGet d (normKey a) with
    | none =>
      dsimp only
      exact ih k ks2 v (fun k2 hk2 => hnone k2 (List.mem_cons_of_mem _ hk2)) hk
    | some w =>
      rw [hm] at ha
      dsimp only at ha ⊢
      cases hn : w.isNull with
      | true =>
        simp only [hn, if_true]
        exact ih k ks2 v (fun k2 hk2 => hnone k2 (List.mem_cons_of_mem _ hk2)) hk
      | false => simp only [hn] at ha; simp at ha

/-- C6 (amended): the field resolver returns the value bound to the first
alias in priority order that has a matching key (keys and aliases compared
case-insensitively after trimming, with the last matching binding winning on
collisions); a present key with an empty or otherwise falsy NON-NULL value is
still returned, but a key bound to null behaves exactly like an absent key
(that is the one deviation from the claim); only when every alias misses is
the absent outcome produced. -/
theorem claim_c6_amended (d : List (String × Val)) (ks : List String) :
    (∀ (ks1 : List String) (k : String) (ks2 : List String), ks = ks1 ++ k :: ks2 →
      (∀ k2 ∈ ks1, aliasHit d k2 = none) →
      ∀ v : Val, aliasHit d k = some v → first_value d ks = some v) ∧
    ((∀ k ∈ ks, aliasHit d k = none) → first_value d ks = none) := by
  constructor
  · intro ks1 k ks2 hks hnone v hk
    subst hks
    exact first_value_hit d ks1 k ks2 v hnone hk
  · exact first_value_none d ks

/-- C6 witness: a document whose single key "  ID " (odd case and spacing)
is bound to the empty string.  The first alias misses, the alias "id" matches
after normalization, and the present-but-empty value is returned. -/
theorem claim_c6_witness :
    first_value [("  ID ", Val.str "")] ["Question No", "id"] = some (Val.str "") :=
  (claim_c6_amended [("  ID ", Val.str "")] ["Question No", "id"]).1 ["Question No"] "id" []
    rfl (by intro k2 hk2; simp at hk2; subst hk2; rfl) (Val.str "") rfl

/- When every question record is a dict, the per-question pass succeeds and
   is the pointwise core transform. -/
theorem mapM_questions_ok (l : List (Nat × Val)) (h : ∀ p ∈ l, p.2.isDict = true) :
    l.mapM (fun p => standardize_question p.2 p.1) =
      Except.ok (l.map (fun p => standardize_question_core p.2.dictEntries p.1)) := by
  induction l with
  | nil => rfl
  | cons a rest ih =>
    have ha := h a (List.mem_cons_self _ _)
    obtain ⟨i, q⟩ := a
    cases q with
    | dict kvs =>
      simp only [List.mapM_cons, List.map_cons]
      rw [ih (fun p hp => h p (List.mem_cons_of_mem _ hp))]
      rfl
    | null => simp [Val.isDict] at ha
    | bool b => simp [Val.isDict] at ha
    | int n => simp [Val.isDict] at ha
    | str s => simp [Val.isDict] at ha
    | list items => simp [Val.isDict] at ha

/- Conversely, success of the per-question pass forces every record to be a
   dict and the result to be the pointwise core transform. -/
theorem mapM_questions_ok_inv (l : List (Nat × Val)) :
    ∀ res : List CanonicalQuestion,
      l.mapM (fun p => standardize_question p.2 p.1) = Except.ok res →
      (∀ p ∈ l, p.2.isDict = true) ∧
        res = l.map (fun p => standardize_question_core p.2.dictEntries p.1) := by
  induction l with
  | nil =>
    intro res h
    simp only [List.mapM_nil] at h
    refine ⟨by simp, ?_⟩
    cases h
    rfl
  | cons a rest ih =>
    intro res h
    simp only [List.mapM_cons] at h
    cases hq : standardize_question a.2 a.1 with
    | error e =>
      rw [hq] at h
      simp [Bind.bind, Except.bind] at h
    | ok c =>
      rw [hq] at h
      cases hr : rest.mapM (fun p => standardize_question p.2 p.1) with
      | error e =>
        rw [hr] at h
        simp [Bind.bind, Except.bind, Functor.map, Except.map] at h
      | ok cs =>
        rw [hr] at h
        have hcons : c :: cs = res := by
          simpa [Bind.bind, Except.bind, Functor.map, Except.map, pure, Except.pure] using h
        obtain ⟨hdict, hres⟩ := ih cs hr
        have hadict : a.2.isDict = true := by
          cases hv : a.2 <;> rw [hv] at hq
          case dict kvs => rfl
          all_goals simp [standardize_question] at hq
        have hc : c = standardize_question_core a.2.dictEntries a.1 := by
          cases hv : a.2 <;> rw [hv] at hq
          case dict kvs => simpa [standardize_question] using hq.symm
          all_goals simp [standardize_question] at hq
        constructor
        · intro p hp
          rcases List.mem_cons.mp hp with hph | hp2
          · rw [hph]; exact hadict
          · exact hdict p hp2
        · rw [← hcons, hres, List.map_cons, hc]

/- Membership transfer through List.enum. -/
theorem snd_mem_of_mem_enum {α : Type} {l : List α} {p : Nat × α} (hp : p ∈ l.enum) :
    p.2 ∈ l := by
  obtain ⟨i, a⟩ := p
  rw [List.enum_eq_zip_range] at hp
  exact (List.of_mem_zip hp).2

/-- C1 (amended): after the "or []" defaulting step (which silently replaces
an absent or FALSY questions value by the empty list), a non-list resolved
value makes standardize raise the structural ValueError and produce no
output; and on documents whose questions all are mappings this is the only
failure mode — a list of mappings always yields a knowledge base.  (A list
containing a non-mapping element instead fails with an attribute error, and a
present falsy scalar does not fail at all; both deviate from the claim.) -/
theorem claim_c1_amended (data : List (String × Val)) :
    ((questionsResolved data).isList = false →
      standardize data = Except.error (PyErr.valueError structuralErrorMsg)) ∧
    (∀ qs : List Val, questionsResolved data = Val.list qs →
      (∀ q ∈ qs, q.isDict = true) →
      ∃ kb : CanonicalKB, standardize data = Except.ok kb) := by
  constructor
  · intro h
    unfold standardize
    cases hq : questionsResolved data with
    | list qs => rw [hq] at h; simp [Val.isList] at h
    | null => rfl
    | bool b => rfl
    | int n => rfl
    | str s => rfl
    | dict entries => rfl
  · intro qs hq hdicts
    unfold standardize
    rw [hq]
    dsimp only
    have henum : ∀ p ∈ qs.enum, p.2.isDict = true :=
      fun p hp => hdicts p.2 (snd_mem_of_mem_enum hp)
    rw [mapM_questions_ok qs.enum henum]
    exact ⟨_, rfl⟩

/-- C1 witness: the amended theorem applied to a document whose questions
field is the truthy non-list scalar "x" (structural error), and to a document
whose questions field is a list of one mapping (success). -/
theorem claim_c1_witness :
    standardize [("questions", Val.str "x")] =
      Except.error (PyErr.valueError structuralErrorMsg) ∧
    (∃ kb : CanonicalKB,
      standardize [("questions", Val.list [Val.dict []])] = Except.ok kb) :=
  ⟨(claim_c1_amended [("questions", Val.str "x")]).1 rfl,
   (claim_c1_amended [("questions", Val.list [Val.dict []])]).2 [Val.dict []] rfl
     (by intro q hq; simp at hq; subst hq; rfl)⟩

/-- C3 (amended): for every generic document whose resolved questions field
is a list of mappings, standardize terminates with a canonical knowledge base
whose Total Question Count equals the length of its questions sequence, which
in turn equals the length of the resolved input list; the count is recomputed
from the transformed list (the input alias "Total Question Count" is never
read).  The claim needs the extra mapping hypothesis: a list containing a
non-mapping element makes the transform fail with an attribute error. -/
theorem claim_c3_amended (data : List (String × Val)) (qs : List Val)
    (hq : questionsResolved data = Val.list qs) (hdicts : ∀ q ∈ qs, q.isDict = true) :
    ∃ kb : CanonicalKB, standardize data = Except.ok kb ∧
      kb.totalQuestionCount = kb.questions.length ∧
      kb.questions.length = qs.length := by
  unfold standardize
  rw [hq]
  dsimp only
  have henum : ∀ p ∈ qs.enum, p.2.isDict = true :=
    fun p hp => hdicts p.2 (snd_mem_of_mem_enum hp)
  rw [mapM_questions_ok qs.enum henum]
  refine ⟨_, rfl, rfl, ?_⟩
  simp [List.enum_length]

/-- C3 witness: the amended theorem applied to a concrete two-question
document. -/
theorem claim_c3_witness :
    ∃ kb : CanonicalKB,
      standardize [("all_questions", Val.list [Val.dict [("q", Val.str "one")], Val.dict []])] =
        Except.ok kb ∧
      kb.totalQuestionCount = kb.questions.length ∧
      kb.questions.length = [Val.dict [("q", Val.str "one")], Val.dict []].length :=
  claim_c3_amended [("all_questions", Val.list [Val.dict [("q", Val.str "one")], Val.dict []])]
    [Val.dict [("q", Val.str "one")], Val.dict []] rfl
    (by intro q hq; simp at hq; rcases hq with h | h <;> subst h <;> rfl)

/- One validate step appends exactly the issues of that question. -/
theorem validateStep_eq (issues : List String) (q : CanonicalQuestion) :
    validateStep issues q = issues ++ questionIssues q := by
  unfold validateStep questionIssues
  split_ifs <;> simp

/- validate is the concatenation of the per-question issue lists. -/
theorem foldl_validateStep_eq (qs : List CanonicalQuestion) :
    ∀ acc : List String, qs.foldl validateStep acc = acc ++ (qs.map questionIssues).flatten := by
  induction qs with
  | nil => intro acc; simp
  | cons q rest ih =>
    intro acc
    simp only [List.foldl_cons, List.map_cons, List.flatten]
    rw [validateStep_eq, ih]
    simp

theorem validate_eq_join (kb : CanonicalKB) :
    validate kb = (kb.questions.map questionIssues).flatten := by
  unfold validate
  rw [foldl_validateStep_eq]
  simp

/-- C9: for every canonical knowledge base containing a question with
non-empty text, non-empty answer, an empty options mapping and difficulty
"Extreme", validate is the concatenation of per-question issue lists (pure,
read-only inspection producing only an issue list, with the knowledge base
untouched), and the issues contributed for that question are exactly two: the
missing-options issue and the invalid-difficulty issue, referencing the
question id, in that order. -/
theorem claim_c9 (kb : CanonicalKB) (q : CanonicalQuestion) (_hmem : q ∈ kb.questions)
    (ht : q.question ≠ "") (ha : q.correctAnswer ≠ "") (ho : q.theirOptions = [])
    (hd : q.difficultyLevel = "Extreme") :
    validate kb = (kb.questions.map questionIssues).flatten ∧
    questionIssues q = ["Q" ++ q.questionNo ++ ": no options found",
                        "Q" ++ q.questionNo ++ ": invalid difficulty \x27Extreme\x27"] := by
  refine ⟨validate_eq_join kb, ?_⟩
  have ht' : (q.question == "") = false := by simpa using ht
  have ha' : (q.correctAnswer == "") = false := by simpa using ha
  unfold questionIssues
  rw [ho, hd, ht', ha']
  simp [VALID_DIFFICULTIES]
  rw [String.append_assoc, String.append_assoc]
  rfl

/-- C9 witness: the theorem applied to a concrete one-question knowledge
base; validate yields exactly the two issues. -/
theorem claim_c9_witness :
    validate { topicName := "T", subTopicName := "", totalQuestionCount := 1,
               questions := [{ questionNo := "\"001\"", question := "t", theirOptions := [],
                               correctAnswer := "option A", explanation := "",
                               difficultyLevel := "Extreme", topic := "", subTopic := "",
                               exam := "Core" }] } =
      ["Q\"001\": no options found", "Q\"001\": invalid difficulty \x27Extreme\x27"] := by
  have h := claim_c9
    { topicName := "T", subTopicName := "", totalQuestionCount := 1,
      questions := [{ questionNo := "\"001\"", question := "t", theirOptions := [],
                      correctAnswer := "option A", explanation := "",
                      difficultyLevel := "Extreme", topic := "", subTopic := "",
                      exam := "Core" }] }
    { questionNo := "\"001\"", question := "t", theirOptions := [],
      correctAnswer := "option A", explanation := "", difficultyLevel := "Extreme",
      topic := "", subTopic := "", exam := "Core" }
    (by decide) (by decide) (by decide) rfl rfl
  rw [h.1]
  rfl

/- Every question produced by a successful standardize run is a core
   transform result. -/
theorem standardize_ok_questions (data : List (String × Val)) (kb : CanonicalKB)
    (h : standardize data = Except.ok kb) :
    ∀ q ∈ kb.questions, ∃ (kvs : List (String × Val)) (idx : Nat),
      q = standardize_question_core kvs idx := by
  unfold standardize at h
  cases hq : questionsResolved data with
  | list qs =>
    rw [hq] at h
    dsimp only at h
    cases hm : qs.enum.mapM (fun p => standardize_question p.2 p.1) with
    | error e => rw [hm] at h; exact Except.noConfusion h
    | ok questions =>
      rw [hm] at h
      dsimp only at h
      obtain ⟨hdict, hres⟩ := mapM_questions_ok_inv qs.enum questions hm
      cases h
      intro q hqq
      simp only [hres] at hqq
      obtain ⟨p, hp, hpq⟩ := List.mem_map.mp hqq
      exact ⟨p.2.dictEntries, p.1, hpq.symm⟩
  | null => rw [hq] at h; exact Except.noConfusion h
  | bool b => rw [hq] at h; exact Except.noConfusion h
  | int n => rw [hq] at h; exact Except.noConfusion h
  | str s => rw [hq] at h; exact Except.noConfusion h
  | dict entries => rw [hq] at h; exact Except.noConfusion h

/- With only canonical difficulties present, the difficulty branch of
   validate never fires. -/
theorem foldl_validate_noDiff (qs : List CanonicalQuestion)
    (hq : ∀ q ∈ qs, q.difficultyLevel = "Easy" ∨ q.difficultyLevel = "Medium" ∨
      q.difficultyLevel = "Hard") :
    ∀ acc : List String, qs.foldl validateStep acc = qs.foldl validateNoDiffStep acc := by
  induction qs with
  | nil => intro acc; rfl
  | cons q rest ih =>
    intro acc
    have hd := hq q (List.mem_cons_self _ _)
    have hc : VALID_DIFFICULTIES.contains q.difficultyLevel = true := by
      rcases hd with h | h | h <;> rw [h] <;> rfl
    have hm : q.difficultyLevel ∈ VALID_DIFFICULTIES := by
      rcases hd with h | h | h <;> rw [h] <;> simp [VALID_DIFFICULTIES]
    simp only [List.foldl_cons]
    rw [show validateStep acc q = validateNoDiffStep acc q by
      simp [validateStep, validateNoDiffStep, hc, hm]]
    exact ih (fun p hp => hq p (List.mem_cons_of_mem _ hp)) _

/-- C10: every question in a successfully standardized knowledge base has one
of the three canonical difficulties, and consequently validate agrees with
the variant of itself whose invalid-difficulty branch is removed: that branch
is unreachable on transform output. -/
theorem claim_c10 (data : List (String × Val)) (kb : CanonicalKB)
    (h : standardize data = Except.ok kb) :
    (∀ q ∈ kb.questions, q.difficultyLevel = "Easy" ∨ q.difficultyLevel = "Medium" ∨
      q.difficultyLevel = "Hard") ∧
    validate kb = validateNoDiff kb := by
  have hshape := standardize_ok_questions data kb h
  have hdiff : ∀ q ∈ kb.questions, q.difficultyLevel = "Easy" ∨
      q.difficultyLevel = "Medium" ∨ q.difficultyLevel = "Hard" := by
    intro q hq
    obtain ⟨kvs, idx, rfl⟩ := hshape q hq
    exact normalize_difficulty_mem _
  exact ⟨hdiff, foldl_validate_noDiff kb.questions hdiff []⟩

/-- C10 witness: the theorem applied to a document whose question carries the
unusable difficulty string "EZ"; the output difficulty is the canonical
default Medium and validate equals its difficulty-branch-free variant. -/
theorem claim_c10_witness :
    (∀ q ∈ ({ topicName := "Unknown Topic", subTopicName := "", totalQuestionCount := 1,
              questions := [{ questionNo := "\"001\"", question := "", theirOptions := [],
                              correctAnswer := "", explanation := "",
                              difficultyLevel := "Medium", topic := "", subTopic := "",
                              exam := "Core" }] } : CanonicalKB).questions,
        q.difficultyLevel = "Easy" ∨ q.difficultyLevel = "Medium" ∨
          q.difficultyLevel = "Hard") ∧
    validate { topicName := "Unknown Topic", subTopicName := "", totalQuestionCount := 1,
               questions := [{ questionNo := "\"001\"", question := "", theirOptions := [],
                               correctAnswer := "", explanation := "",
                               difficultyLevel := "Medium", topic := "", subTopic := "",
                               exam := "Core" }] } =
      validateNoDiff { topicName := "Unknown Topic", subTopicName := "",
                       totalQuestionCount := 1,
                       questions := [{ questionNo := "\"001\"", question := "",
                                       theirOptions := [], correctAnswer := "",
                                       explanation := "", difficultyLevel := "Medium",
                                       topic := "", subTopic := "", exam := "Core" }] } :=
  claim_c10 [("questions", Val.list [Val.dict [("difficulty", Val.str "EZ")]])] _ rfl

/- A successful standardize run maps the core transform over the enumerated
   question list. -/
theorem standardize_ok_questions_eq (data : List (String × Val)) (qs : List Val)
    (kb : CanonicalKB) (hq : questionsResolved data = Val.list qs)
    (hok : standardize data = Except.ok kb) :
    kb.questions = qs.enum.map (fun p => standardize_question_core p.2.dictEntries p.1) := by
  unfold standardize at hok
  rw [hq] at hok
  dsimp only at hok
  cases hm : qs.enum.mapM (fun p => standardize_question p.2 p.1) with
  | error e => rw [hm] at hok; exact Except.noConfusion hok
  | ok questions =>
    rw [hm] at hok
    dsimp only at hok
    obtain ⟨_, hres⟩ := mapM_questions_ok_inv qs.enum questions hm
    cases hok
    exact hres

/-- C7 (amended): when a question record at position i (0-based) has no
resolvable id field (no alias hits a truthy value), the transformer falls
back to str(i + 1) - the 1-based position, not the 0-based index - and pads
it, storing the result wrapped in double quotes; so the first question
without a resolvable id receives "001". -/
theorem claim_c7_amended (data : List (String × Val)) (qs : List Val) (kb : CanonicalKB)
    (i : Nat) (kvs : List (String × Val))
    (hq : questionsResolved data = Val.list qs)
    (hok : standardize data = Except.ok kb)
    (hi : qs[i]? = some (Val.dict kvs))
    (hnoid : ∀ v : Val, first_value kvs Q_NO_KEYS = some v → v.truthy = false) :
    kb.questions[i]?.map CanonicalQuestion.questionNo =
      some ("\"" ++ pad_question_no (Val.str (natStr (i + 1))) ++ "\"") := by
  have hfall : orDefault (first_value kvs Q_NO_KEYS) (Val.str (natStr (i + 1))) =
      Val.str (natStr (i + 1)) := by
    cases hv : first_value kvs Q_NO_KEYS with
    | none => rfl
    | some v =>
      have := hnoid v hv
      simp [orDefault, this]
  rw [standardize_ok_questions_eq data qs kb hq hok]
  rw [List.getElem?_map, List.getElem?_enum, hi]
  simp [Val.dictEntries, standardize_question_core, hfall]

/-- C7 witness: the amended theorem applied to a one-element question list
whose record is the empty mapping: the produced id is the quote-wrapped
"001". -/
theorem claim_c7_witness :
    ([{ questionNo := "\"001\"", question := "", theirOptions := [],
        correctAnswer := "", explanation := "", difficultyLevel := "Medium",
        topic := "", subTopic := "", exam := "Core" }] :
      List CanonicalQuestion)[0]?.map CanonicalQuestion.questionNo =
      some ("\"" ++ pad_question_no (Val.str (natStr 1)) ++ "\"") := by
  have h := claim_c7_amended [("questions", Val.list [Val.dict []])] [Val.dict []]
    { topicName := "Unknown Topic", subTopicName := "", totalQuestionCount := 1,
      questions := [{ questionNo := "\"001\"", question := "", theirOptions := [],
                      correctAnswer := "", explanation := "", difficultyLevel := "Medium",
                      topic := "", subTopic := "", exam := "Core" }] }
    0 [] rfl rfl rfl (by intro v hv; cases hv)
  exact h

/- Digit characters. -/
theorem ofNat_digit_isDigit (m : Nat) (h : m < 10) : (Char.ofNat (48 + m)).isDigit = true := by
  interval_cases m <;> decide

/- A digit character is not a sign character. -/
theorem digit_not_sign (c : Char) (h : c.isDigit = true) : (c == '+' || c == '-') = false := by
  simp only [Bool.or_eq_false_iff, beq_eq_false_iff_ne]
  constructor <;> rintro rfl <;> simp at h

/- The decimal rendering consists of digit characters. -/
theorem natToDigitsAux_digits :
    ∀ (fuel m : Nat) (acc : List Char), (∀ c ∈ acc, c.isDigit = true) →
      ∀ c ∈ natToDigitsAux fuel m acc, c.isDigit = true := by
  intro fuel
  induction fuel with
  | zero => intro m acc hacc c hc; exact hacc c hc
  | succ f ih =>
    intro m acc hacc c hc
    rw [natToDigitsAux] at hc
    by_cases hm : m < 10
    · rw [if_pos hm] at hc
      rcases List.mem_cons.mp hc with rfl | h2
      · exact ofNat_digit_isDigit m hm
      · exact hacc _ h2
    · rw [if_neg hm] at hc
      refine ih (m / 10) _ ?_ c hc
      intro c2 hc2
      rcases List.mem_cons.mp hc2 with rfl | h2
      · exact ofNat_digit_isDigit (m % 10) (Nat.mod_lt _ (by omega))
      · exact hacc _ h2

/- With at least k units of fuel, a number below 10 ^ k renders to at most k
   digits (plus the accumulator). -/
theorem natToDigitsAux_length :
    ∀ (k fuel m : Nat) (acc : List Char), 0 < k → k ≤ fuel → m < 10 ^ k →
      (natToDigitsAux fuel m acc).length ≤ k + acc.length := by
  intro k
  induction k with
  | zero => intro fuel m acc h0; omega
  | succ k ih =>
    intro fuel m acc _ hkf hm
    obtain ⟨f, rfl⟩ : ∃ f, fuel = f + 1 := ⟨fuel - 1, by omega⟩
    rw [natToDigitsAux]
    by_cases h10 : m < 10
    · rw [if_pos h10]
      simp
      omega
    · rw [if_neg h10]
      have hk1 : 0 < k := by
        rcases Nat.eq_zero_or_pos k with hk0 | hk1
        · subst hk0
          simp [pow_succ, pow_zero] at hm
          omega
        · exact hk1
      have hdiv : m / 10 < 10 ^ k := by
        rw [Nat.div_lt_iff_lt_mul (by omega : 0 < 10)]
        calc m < 10 ^ (k + 1) := hm
        _ = 10 ^ k * 10 := by rw [pow_succ]
      have := ih f (m / 10) (Char.ofNat (48 + m % 10) :: acc) hk1 (by omega) hdiv
      simp at this ⊢
      omega

/- Fuel does not matter as long as it covers the number of digits. -/
theorem natToDigitsAux_fuel :
    ∀ (f g m : Nat) (acc : List Char), 0 < f → 0 < g → m < 10 ^ f → m < 10 ^ g →
      natToDigitsAux f m acc = natToDigitsAux g m acc := by
  intro f
  induction f with
  | zero => intro g m acc h0; omega
  | succ f ih =>
    intro g m acc _ hg hmf hmg
    obtain ⟨g1, rfl⟩ : ∃ g1, g = g1 + 1 := ⟨g - 1, by omega⟩
    rw [natToDigitsAux, natToDigitsAux]
    by_cases h10 : m < 10
    · rw [if_pos h10, if_pos h10]
    · rw [if_neg h10, if_neg h10]
      have hf1 : 0 < f := by
        rcases Nat.eq_zero_or_pos f with hf0 | hf1
        · subst hf0; simp [pow_succ, pow_zero] at hmf; omega
        · exact hf1
      have hg1 : 0 < g1 := by
        rcases Nat.eq_zero_or_pos g1 with hg0 | hg1
        · subst hg0; simp [pow_succ, pow_zero] at hmg; omega
        · exact hg1
      have hdf : m / 10 < 10 ^ f := by
        rw [Nat.div_lt_iff_lt_mul (by omega : 0 < 10)]
        calc m < 10 ^ (f + 1) := hmf
        _ = 10 ^ f * 10 := by rw [pow_succ]
      have hdg : m / 10 < 10 ^ g1 := by
        rw [Nat.div_lt_iff_lt_mul (by omega : 0 < 10)]
        calc m < 10 ^ (g1 + 1) := hmg
        _ = 10 ^ g1 * 10 := by rw [pow_succ]
      exact ih g1 (m / 10) _ hf1 hg1 hdf hdg

/- natStr of a number below 1000: at most three digit characters. -/
theorem natStr_small (m : Nat) (hm : m < 1000) :
    (natStr m).data.length ≤ 3 ∧ ∀ c ∈ (natStr m).data, c.isDigit = true := by
  have hm3 : m < 10 ^ 3 := by norm_num; omega
  have hmf : m < 10 ^ (m + 1) :=
    lt_of_lt_of_le (Nat.lt_pow_self (by norm_num) m)
      (Nat.pow_le_pow_right (by norm_num) (by omega))
  have hfuel : natToDigitsAux (m + 1) m [] = natToDigitsAux 3 m [] :=
    natToDigitsAux_fuel (m + 1) 3 m [] (by omega) (by omega) hmf hm3
  have hdata : (natStr m).data = natToDigitsAux 3 m [] := by
    simp only [natStr]
    exact hfuel
  rw [hdata]
  constructor
  · have := natToDigitsAux_length 3 3 m [] (by omega) le_rfl hm3
    simpa using this
  · exact natToDigitsAux_digits 3 m [] (by simp)

/- zfill 3 on a short digit-only string gives exactly three digits. -/
theorem zfill3_digits (s : String) (hd : ∀ c ∈ s.data, c.isDigit = true)
    (hl : s.data.length ≤ 3) :
    (zfill 3 s).data.length = 3 ∧ ∀ c ∈ (zfill 3 s).data, c.isDigit = true := by
  obtain ⟨l⟩ := s
  unfold zfill
  dsimp only at hd hl ⊢
  by_cases h3 : 3 ≤ l.length
  · rw [if_pos h3]
    dsimp only
    exact ⟨by omega, hd⟩
  · rw [if_neg h3]
    cases l with
    | nil =>
      dsimp only
      refine ⟨by simp, ?_⟩
      intro c hc
      simp at hc
      subst hc
      decide
    | cons c rest =>
      dsimp only
      have hc := hd c (List.mem_cons_self _ _)
      rw [digit_not_sign c hc]
      simp only [Bool.false_eq_true, if_false]
      constructor
      · simp at hl h3 ⊢
        omega
      · intro c2 hc2
        simp at hc2
        rcases hc2 with ⟨_, h⟩ | h | h
        · subst h; decide
        · subst h; exact hc
        · exact hd c2 (List.mem_cons_of_mem _ h)

/-- C4 (amended): the stored id of every produced question is the padded
identifier wrapped in literal double-quote characters, and the padded
identifier is a zero-padded string of exactly three digit characters
whenever the resolved identifier (or the positional fallback) parses as a
nonnegative integer below 1000.  (Larger values keep all their digits,
negative values carry a sign, and non-numeric identifiers pass through
trimmed and unpadded, as the counterexample shows.) -/
theorem claim_c4_amended (kvs : List (String × Val)) (idx : Nat) :
    (standardize_question_core kvs idx).questionNo =
      "\"" ++ pad_question_no (orDefault (first_value kvs Q_NO_KEYS)
        (Val.str (natStr (idx + 1)))) ++ "\"" ∧
    (∀ (v : Val) (n : Int), padNum v = some n → 0 ≤ n → n < 1000 →
      (pad_question_no v).data.length = 3 ∧
        ∀ c ∈ (pad_question_no v).data, c.isDigit = true) := by
  constructor
  · rfl
  · intro v n hpn h0 h1000
    unfold pad_question_no
    rw [hpn]
    dsimp only
    obtain ⟨m, rfl⟩ : ∃ m : Nat, n = Int.ofNat m := ⟨n.toNat, (Int.toNat_of_nonneg h0).symm⟩
    have hm : m < 1000 := by
      have : (Int.ofNat m) = (m : Int) := rfl
      rw [this] at h1000
      exact_mod_cast h1000
    have hns := natStr_small m hm
    rw [show intStr (Int.ofNat m) = natStr m from rfl]
    exact zfill3_digits (natStr m) hns.2 hns.1

/-- C4 witness: for the question record with id "7" at index 0, the stored id
is the quote-wrapped padded value, and the padded value "007" has exactly
three digit characters. -/
theorem claim_c4_witness :
    (standardize_question_core [("id", Val.str "7")] 0).questionNo =
      "\"" ++ pad_question_no (orDefault (first_value [("id", Val.str "7")] Q_NO_KEYS)
        (Val.str (natStr 1))) ++ "\"" ∧
    ((pad_question_no (Val.str "7")).data.length = 3 ∧
      ∀ c ∈ (pad_question_no (Val.str "7")).data, c.isDigit = true) :=
  ⟨(claim_c4_amended [("id", Val.str "7")] 0).1,
   (claim_c4_amended [("id", Val.str "7")] 0).2 (Val.str "7") 7 rfl (by decide) (by decide)⟩

/- String.intercalate accumulates on the left; the accumulator factors out. -/
theorem intercalate_go_factor (s : String) :
    ∀ (l : List String) (p q : String),
      String.intercalate.go (p ++ q) s l = p ++ String.intercalate.go q s l := by
  intro l
  induction l with
  | nil => intro p q; rfl
  | cons a as ih =>
    intro p q
    show String.intercalate.go (p ++ q ++ s ++ a) s as =
      p ++ String.intercalate.go (q ++ s ++ a) s as
    rw [show p ++ q ++ s ++ a = p ++ (q ++ s ++ a) by
      rw [String.append_assoc, String.append_assoc, String.append_assoc]]
    exact ih p (q ++ s ++ a)

theorem intercalate_cons_cons (s a b : String) (l : List String) :
    String.intercalate s (a :: b :: l) = a ++ s ++ String.intercalate s (b :: l) := by
  show String.intercalate.go (a ++ s ++ b) s l = a ++ s ++ String.intercalate.go b s l
  rw [show a ++ s ++ b = (a ++ s) ++ b from rfl]
  exact intercalate_go_factor s l (a ++ s) b

/- matchCI succeeds exactly on inputs whose lower-cased prefix is the
   pattern. -/
theorem matchCI_some_iff :
    ∀ (pat l r : List Char),
      matchCI pat l = some r ↔ ∃ w, l = w ++ r ∧ w.map Char.toLower = pat := by
  intro pat
  induction pat with
  | nil =>
    intro l r
    constructor
    · intro h
      simp [matchCI] at h
      exact ⟨[], by simp [h]⟩
    · rintro ⟨w, hl, hw⟩
      have : w = [] := by simpa using congrArg List.length hw
      subst this
      simp at hl
      simp [matchCI, hl]
  | cons p ps ih =>
    intro l r
    constructor
    · intro h
      cases l with
      | nil => simp [matchCI] at h
      | cons c cs =>
        rw [matchCI] at h
        by_cases hc : (c.toLower == p) = true
        · rw [if_pos hc] at h
          obtain ⟨w, hcs, hw⟩ := (ih cs r).mp h
          refine ⟨c :: w, by simp [hcs], ?_⟩
          simp [hw]
          exact beq_iff_eq.mp hc
        · rw [if_neg hc] at h
          cases h
    · rintro ⟨w, hl, hw⟩
      cases w with
      | nil => simp at hw
      | cons x xs =>
        simp only [List.map_cons, List.cons.injEq] at hw
        obtain ⟨hx, hxs⟩ := hw
        subst hl
        rw [List.cons_append, matchCI]
        rw [if_pos (by simp [hx])]
        exact (ih (xs ++ r) r).mpr ⟨xs, rfl, hxs⟩

/- splitComma never returns the empty list of parts. -/
theorem splitComma_ne_nil : ∀ l : List Char, splitComma l ≠ [] := by
  intro l
  induction l with
  | nil => simp [splitComma]
  | cons c rest ih =>
    rw [splitComma]
    by_cases hc : (c == ',') = true
    · rw [if_pos hc]; simp
    · rw [if_neg hc]
      cases h : splitComma rest with
      | nil => exact absurd h ih
      | cons p ps => simp

/- Every part produced by splitComma is comma-free. -/
theorem splitComma_parts_comma_free :
    ∀ l : List Char, ∀ p ∈ splitComma l, ',' ∉ p := by
  intro l
  induction l with
  | nil =>
    intro p hp
    simp [splitComma] at hp
    simp [hp]
  | cons c rest ih =>
    intro p hp
    rw [splitComma] at hp
    by_cases hc : (c == ',') = true
    · rw [if_pos hc] at hp
      rcases List.mem_cons.mp hp with rfl | h2
      · simp
      · exact ih p h2
    · rw [if_neg hc] at hp
      cases h : splitComma rest with
      | nil => exact absurd h (splitComma_ne_nil rest)
      | cons q qs =>
        rw [h] at hp
        rcases List.mem_cons.mp hp with rfl | h2
        · intro hmem
          rcases List.mem_cons.mp hmem with rfl | h3
          · simp at hc
          · exact ih q (h ▸ List.mem_cons_self _ _) h3
        · exact ih p (h ▸ List.mem_cons_of_mem _ h2)

/- Joining the parts of splitComma with commas restores the input. -/
theorem splitComma_join :
    ∀ l : List Char, ∀ p ps, splitComma l = p :: ps →
      l = p ++ (ps.map (fun q => ',' :: q)).flatten := by
  intro l
  induction l with
  | nil =>
    intro p ps h
    rw [splitComma] at h
    injection h with h1 h2
    rw [← h1, ← h2]
    rfl
  | cons c rest ih =>
    intro p ps h
    rw [splitComma] at h
    by_cases hc : (c == ',') = true
    · rw [if_pos hc] at h
      have hcc : c = ',' := beq_iff_eq.mp hc
      subst hcc
      injection h with h1 h2
      cases hr : splitComma rest with
      | nil => exact absurd hr (splitComma_ne_nil rest)
      | cons q qs =>
        rw [hr] at h2
        rw [← h1, ← h2]
        have := ih q qs hr
        simp only [List.nil_append, List.map_cons, List.flatten_cons]
        rw [this]
        simp
    · rw [if_neg hc] at h
      cases hr : splitComma rest with
      | nil => exact absurd hr (splitComma_ne_nil rest)
      | cons q qs =>
        rw [hr] at h
        injection h with h1 h2
        rw [← h1, ← h2]
        have := ih q qs hr
        simp only [List.cons_append, List.cons.injEq, true_and]
        rw [this]

/- splitComma distributes over an append whose left part is comma-free. -/
theorem splitComma_append (xs : List Char) (hx : ',' ∉ xs) :
    ∀ ys p ps, splitComma ys = p :: ps → splitComma (xs ++ ys) = (xs ++ p) :: ps := by
  induction xs with
  | nil => intro ys p ps h; simpa using h
  | cons x xt ih =>
    intro ys p ps h
    have hx1 : x ≠ ',' := fun hh => hx (hh ▸ List.mem_cons_self _ _)
    have hxt : ',' ∉ xt := fun hh => hx (List.mem_cons_of_mem _ hh)
    rw [List.cons_append, splitComma]
    rw [if_neg (by simpa using hx1)]
    rw [ih hxt ys p ps h]
    dsimp only
    simp

/- A comma-free list is a single part. -/
theorem splitComma_comma_free (xs : List Char) (hx : ',' ∉ xs) : splitComma xs = [xs] := by
  have := splitComma_append xs hx [] [] [] rfl
  simpa using this

/- Whitespace characters are fixed by toLower. -/
theorem toLower_space (x : Char) (h : pyIsSpace x = true) : Char.toLower x = x := by
  simp [pyIsSpace] at h
  rcases h with ((((rfl | rfl) | rfl) | rfl) | rfl) | rfl <;> decide

/- A whitespace character is not an option letter. -/
theorem space_not_optLetter (c : Char) (h : pyIsSpace c = true) : optLetter c = false := by
  simp [pyIsSpace] at h
  rcases h with ((((rfl | rfl) | rfl) | rfl) | rfl) | rfl <;> decide

theorem optLetter_not_space (c : Char) (h : optLetter c = true) : pyIsSpace c = false := by
  cases hs : pyIsSpace c
  · rfl
  · rw [space_not_optLetter c hs] at h
    cases h

/- An option letter is not a comma. -/
theorem optLetter_ne_comma (c : Char) (h : optLetter c = true) : c ≠ ',' := by
  rintro rfl
  simp [optLetter] at h

/- A character whose lower-case form is a given non-space character is not
   whitespace. -/
theorem nonspace_of_toLower (x t : Char) (hx : Char.toLower x = t)
    (ht : pyIsSpace t = false) : pyIsSpace x = false := by
  cases hs : pyIsSpace x
  · rfl
  · rw [toLower_space x hs] at hx
    rw [hx] at hs
    rw [hs] at ht
    cases ht

/- Characters of the "option" word (after lower-casing) are never whitespace
   and never commas. -/
theorem optionWord_no_space (w : List Char) (pat : List Char)
    (hw : w.map Char.toLower = pat) (hpat : ∀ t ∈ pat, pyIsSpace t = false) :
    ∀ x ∈ w, pyIsSpace x = false := by
  intro x hx
  have : Char.toLower x ∈ pat := hw ▸ List.mem_map_of_mem _ hx
  exact nonspace_of_toLower x _ rfl (hpat _ this)

theorem optionWord_no_comma (w : List Char) (pat : List Char)
    (hw : w.map Char.toLower = pat) (hpat : ',' ∉ pat) : ',' ∉ w := by
  intro hmem
  have : Char.toLower ',' ∈ pat := hw ▸ List.mem_map_of_mem _ hmem
  rw [show Char.toLower ',' = ',' from rfl] at this
  exact hpat this

/- dropWhile passes over a run of satisfied characters. -/
theorem dropWhile_append_all (p : Char → Bool) (ws l : List Char)
    (hws : ∀ x ∈ ws, p x = true) : (ws ++ l).dropWhile p = l.dropWhile p := by
  induction ws with
  | nil => rfl
  | cons w wt ih =>
    rw [List.cons_append, List.dropWhile_cons,
      if_pos (hws w (List.mem_cons_self _ _))]
    exact ih (fun x hx => hws x (List.mem_cons_of_mem _ hx))

/- strip ignores an all-whitespace prefix. -/
theorem stripChars_ws_drop (ws l : List Char) (hws : ∀ x ∈ ws, pyIsSpace x = true) :
    stripChars (ws ++ l) = stripChars l := by
  unfold stripChars
  rw [dropWhile_append_all pyIsSpace ws l hws]

/- strip is the identity when both edges are non-whitespace. -/
theorem stripChars_no_edge (x : Char) (mid : List Char) (c : Char)
    (hx : pyIsSpace x = false) (hc : pyIsSpace c = false) :
    stripChars ((x :: mid) ++ [c]) = (x :: mid) ++ [c] := by
  unfold stripChars
  simp only [List.cons_append]
  rw [List.dropWhile_cons, if_neg (by simp [hx])]
  rw [show (x :: (mid ++ [c])).reverse = c :: (mid.reverse ++ [x]) by simp]
  rw [List.dropWhile_cons, if_neg (by simp [hc])]
  simp

/- strip of a non-whitespace singleton. -/
theorem stripChars_singleton (c : Char) (hc : pyIsSpace c = false) :
    stripChars [c] = [c] := by
  unfold stripChars
  rw [List.dropWhile_cons]
  rw [if_neg (by simp [hc])]
  simp [List.dropWhile_cons, hc]

/- fullOptItem holds exactly on the seven-plus-one character item shape. -/
theorem fullOptItem_iff (l : List Char) :
    fullOptItem l = true ↔
      ∃ w c, l = w ++ [c] ∧ w.map Char.toLower = optionSpace ∧ optLetter c = true := by
  unfold fullOptItem matchOptItem
  constructor
  · intro h
    cases hm : matchCI optionSpace l with
    | none => rw [hm] at h; cases h
    | some rem =>
      rw [hm] at h
      cases rem with
      | nil => dsimp only at h; cases h
      | cons c rest =>
        dsimp only at h
        by_cases hc : optLetter c = true
        · rw [if_pos hc] at h
          cases rest with
          | nil =>
            obtain ⟨w, hl, hw⟩ := (matchCI_some_iff optionSpace l [c]).mp hm
            exact ⟨w, c, hl, hw, hc⟩
          | cons d ds => simp at h
        · rw [if_neg hc] at h
          cases h
  · rintro ⟨w, c, rfl, hw, hc⟩
    rw [(matchCI_some_iff optionSpace (w ++ [c]) [c]).mpr ⟨w, rfl, hw⟩]
    dsimp only
    rw [if_pos hc]

/- An item never contains a comma and never starts with whitespace. -/
theorem item_comma_free (w : List Char) (c : Char)
    (hw : w.map Char.toLower = optionSpace) (hc : optLetter c = true) :
    ',' ∉ w ++ [c] := by
  intro hmem
  rcases List.mem_append.mp hmem with h | h
  · exact optionWord_no_comma w optionSpace hw (by decide) h
  · simp at h
    exact optLetter_ne_comma c hc h.symm

theorem item_strip (w : List Char) (c : Char)
    (hw : w.map Char.toLower = optionSpace) (hc : optLetter c = true) :
    stripChars (w ++ [c]) = w ++ [c] := by
  cases w with
  | nil => exact absurd hw (by decide)
  | cons x xs =>
    have hx : Char.toLower x = 'o' := by
      rw [show optionSpace = 'o' :: "ption ".data by decide] at hw
      simp only [List.map_cons, List.cons.injEq] at hw
      exact hw.1
    have hxs : pyIsSpace x = false := nonspace_of_toLower x 'o' hx (by decide)
    exact stripChars_no_edge x xs c hxs (optLetter_not_space c hc)

/- Only the space character lower-cases to a space. -/
theorem toLower_eq_space (s : Char) (h : Char.toLower s = ' ') : s = ' ' := by
  simp only [Char.toLower] at h
  by_cases hc : s.toNat ≥ 65 ∧ s.toNat ≤ 90
  · rw [if_pos hc] at h
    obtain ⟨h1, h2⟩ := hc
    generalize hm : s.toNat = m at h h1 h2
    interval_cases m <;> exact absurd h (by decide)
  · rw [if_neg hc] at h
    exact h

/- The "option " word splits as six non-space characters plus one space. -/
theorem optionSpace_split (w : List Char) (hw : w.map Char.toLower = optionSpace) :
    ∃ v, w = v ++ [' '] ∧ v ≠ [] ∧ (∀ x ∈ v, pyIsSpace x = false) ∧
      v.map Char.toLower = ("option" : String).data := by
  have hsplit : optionSpace = ("option" : String).data ++ [' '] := by decide
  rw [hsplit] at hw
  obtain ⟨v, sp, rfl, hv, hsp⟩ := List.map_eq_append_iff.mp hw
  cases sp with
  | nil => simp at hsp
  | cons s rest =>
    cases rest with
    | nil =>
      simp only [List.map_cons, List.map_nil, List.cons.injEq, and_true] at hsp
      have hs : s = ' ' := toLower_eq_space s hsp
      subst hs
      refine ⟨v, rfl, ?_, ?_, hv⟩
      · intro hvnil
        subst hvnil
        simp at hv
      · exact optionWord_no_space v _ hv (by decide)
    | cons t ts => simp at hsp

/- splitWs accumulates non-whitespace characters. -/
theorem splitWsAux_no_space (v : List Char) (hv : ∀ x ∈ v, pyIsSpace x = false) :
    ∀ (acc l : List Char), splitWsAux acc (v ++ l) = splitWsAux (v.reverse ++ acc) l := by
  induction v with
  | nil => intro acc l; simp
  | cons x xt ih =>
    intro acc l
    rw [List.cons_append, splitWsAux]
    rw [if_neg (by simp [hv x (List.mem_cons_self _ _)])]
    rw [ih (fun y hy => hv y (List.mem_cons_of_mem _ hy)) (x :: acc) l]
    simp

/- splitWs of one canonical item: the word and the letter. -/
theorem splitWs_item (v : List Char) (c : Char) (hv : ∀ x ∈ v, pyIsSpace x = false)
    (hvne : v ≠ []) (hc : pyIsSpace c = false) :
    splitWs (v ++ ' ' :: [c]) = [v, [c]] := by
  unfold splitWs
  rw [splitWsAux_no_space v hv [] (' ' :: [c])]
  obtain ⟨z, zs, hz⟩ : ∃ z zs, v.reverse = z :: zs := by
    cases hvr : v.reverse with
    | nil => exact absurd (by simpa using hvr) hvne
    | cons z zs => exact ⟨z, zs, rfl⟩
  rw [List.append_nil, hz]
  rw [splitWsAux]
  rw [if_pos (by decide)]
  rw [if_neg (by simp)]
  rw [splitWsAux]
  rw [if_neg (by simp [hc])]
  rw [splitWsAux]
  simp only [List.isEmpty_cons, if_neg]
  rw [show (z :: zs).reverse = v by rw [← hz]; exact List.reverse_reverse v]
  simp

/- Rendering one canonical item produces "option " plus the upper-cased
   letter. -/
theorem render_item (w : List Char) (c : Char)
    (hw : w.map Char.toLower = optionSpace) (hc : optLetter c = true) :
    "option " ++ pyUpper (lastWord ⟨stripChars (w ++ [c])⟩) =
      "option " ++ (⟨[c.toUpper]⟩ : String) := by
  rw [item_strip w c hw hc]
  obtain ⟨v, rfl, hvne, hvsp, hvlow⟩ := optionSpace_split w hw
  have harr : (v ++ [' ']) ++ [c] = v ++ ' ' :: [c] := by simp
  rw [harr]
  unfold lastWord
  rw [show (⟨v ++ ' ' :: [c]⟩ : String).data = v ++ ' ' :: [c] from rfl]
  rw [splitWs_item v c hvsp hvne (optLetter_not_space c hc)]
  rfl

theorem canonLetters_ne_nil {l cs : List Char} (h : CanonLettersP l cs) : cs ≠ [] := by
  cases h <;> simp

/- Under the declarative canonical shape, the rebuild produces the
   canonical "option X" list of the collected letters. -/
theorem canonicalize_of_canonLetters :
    ∀ {l cs : List Char}, CanonLettersP l cs →
      canonicalizeAnswerParts l =
        String.intercalate ", " (cs.map (fun c => "option " ++ (⟨[c.toUpper]⟩ : String))) := by
  intro l cs h
  induction h with
  | single w c hw hc =>
    unfold canonicalizeAnswerParts
    rw [splitComma_comma_free _ (item_comma_free w c hw hc)]
    simp only [List.map_cons, List.map_nil]
    rw [render_item w c hw hc]
  | more w c ws rest cs hw hc hws hrest ih =>
    obtain ⟨p0, ps0, hr⟩ : ∃ p0 ps0, splitComma rest = p0 :: ps0 := by
      cases hsr : splitComma rest with
      | nil => exact absurd hsr (splitComma_ne_nil rest)
      | cons a b => exact ⟨a, b, rfl⟩
    have hwsf : ',' ∉ ws := fun hm => absurd (hws ',' hm) (by decide)
    have hitem : ',' ∉ w ++ [c] := item_comma_free w c hw hc
    have hsplit : splitComma (w ++ [c] ++ ',' :: ws ++ rest) =
        (w ++ [c]) :: (ws ++ p0) :: ps0 := by
      rw [show w ++ [c] ++ ',' :: ws ++ rest = (w ++ [c]) ++ (',' :: (ws ++ rest)) by simp]
      rw [splitComma_append (w ++ [c]) hitem (',' :: (ws ++ rest))
        [] (splitComma (ws ++ rest)) (by rw [splitComma]; rw [if_pos (by decide)])]
      rw [splitComma_append ws hwsf rest p0 ps0 hr]
      simp
    unfold canonicalizeAnswerParts
    rw [hsplit]
    simp only [List.map_cons]
    rw [render_item w c hw hc]
    rw [show stripChars (ws ++ p0) = stripChars p0 from stripChars_ws_drop ws p0 hws]
    obtain ⟨c2, cs2, hcs⟩ : ∃ c2 cs2, cs = c2 :: cs2 := by
      cases hcc : cs with
      | nil => exact absurd hcc (canonLetters_ne_nil hrest)
      | cons a b => exact ⟨a, b, rfl⟩
    subst hcs
    rw [intercalate_cons_cons]
    rw [List.map_cons, intercalate_cons_cons]
    unfold canonicalizeAnswerParts at ih
    rw [hr] at ih
    simp only [List.map_cons] at ih
    rw [ih]

/- An item does not start with whitespace. -/
theorem item_dropWhile (p : List Char) (hp : fullOptItem p = true) :
    p.dropWhile pyIsSpace = p := by
  obtain ⟨w, c, rfl, hw, hc⟩ := (fullOptItem_iff p).mp hp
  cases w with
  | nil => exact absurd hw (by decide)
  | cons x xs =>
    have hx : Char.toLower x = 'o' := by
      rw [show optionSpace = 'o' :: "ption ".data by decide] at hw
      simp only [List.map_cons, List.cons.injEq] at hw
      exact hw.1
    have hxs : pyIsSpace x = false := nonspace_of_toLower x 'o' hx (by decide)
    rw [List.cons_append, List.dropWhile_cons, if_neg (by simp [hxs])]

/- Building the declarative shape from the split-and-check decomposition. -/
theorem canonLetters_of_parts :
    ∀ (ps : List (List Char)) (p : List Char), fullOptItem p = true →
      (∀ q ∈ ps, fullOptItem (q.dropWhile pyIsSpace) = true) →
      ∃ cs, CanonLettersP (p ++ (ps.map (fun q => ',' :: q)).flatten) cs := by
  intro ps
  induction ps with
  | nil =>
    intro p hp _
    obtain ⟨w, c, rfl, hw, hc⟩ := (fullOptItem_iff p).mp hp
    exact ⟨[c], by simpa using CanonLettersP.single w c hw hc⟩
  | cons q qs ih =>
    intro p hp hq
    obtain ⟨w, c, rfl, hw, hc⟩ := (fullOptItem_iff p).mp hp
    obtain ⟨cs, hcs⟩ := ih (q.dropWhile pyIsSpace) (hq q (List.mem_cons_self _ _))
      (fun r hr => hq r (List.mem_cons_of_mem _ hr))
    refine ⟨c :: cs, ?_⟩
    have hmore := CanonLettersP.more w c (q.takeWhile pyIsSpace)
      (q.dropWhile pyIsSpace ++ (qs.map (fun r => ',' :: r)).flatten) cs hw hc
      (fun x hx => List.mem_takeWhile_imp hx) ?_
    · have harr : w ++ [c] ++ ',' :: q.takeWhile pyIsSpace ++
          (q.dropWhile pyIsSpace ++ (qs.map (fun r => ',' :: r)).flatten) =
          (w ++ [c]) ++ ((q :: qs).map (fun r => ',' :: r)).flatten := by
        simp only [List.map_cons, List.flatten_cons, List.cons_append, List.append_assoc]
        rw [← List.append_assoc (q.takeWhile pyIsSpace)]
        rw [List.takeWhile_append_dropWhile]
      rw [← harr]
      exact hmore
    · -- the recursive canonical shape for the remainder
      exact hcs
/- isCanonicalAnswer decides the declarative canonical shape. -/
theorem isCanonicalAnswer_iff (l : List Char) :
    isCanonicalAnswer l = true ↔ ∃ cs, CanonLettersP l cs := by
  constructor
  · intro h
    unfold isCanonicalAnswer at h
    cases hs : splitComma l with
    | nil => exact absurd hs (splitComma_ne_nil l)
    | cons p ps =>
      rw [hs] at h
      simp only [Bool.and_eq_true, List.all_eq_true] at h
      obtain ⟨hp, hps⟩ := h
      rw [splitComma_join l p ps hs]
      exact canonLetters_of_parts ps p hp (fun q hq => hps q hq)
  · rintro ⟨cs, h⟩
    induction h with
    | single w c hw hc =>
      unfold isCanonicalAnswer
      rw [splitComma_comma_free _ (item_comma_free w c hw hc)]
      dsimp only
      rw [show fullOptItem (w ++ [c]) = true from (fullOptItem_iff _).mpr ⟨w, c, rfl, hw, hc⟩]
      rfl
    | more w c ws rest cs2 hw hc hws hrest ih =>
      obtain ⟨p0, ps0, hr⟩ : ∃ p0 ps0, splitComma rest = p0 :: ps0 := by
        cases hsr : splitComma rest with
        | nil => exact absurd hsr (splitComma_ne_nil rest)
        | cons a b => exact ⟨a, b, rfl⟩
      have hwsf : ',' ∉ ws := fun hm => absurd (hws ',' hm) (by decide)
      have hitem : ',' ∉ w ++ [c] := item_comma_free w c hw hc
      have hsplit : splitComma (w ++ [c] ++ ',' :: ws ++ rest) =
          (w ++ [c]) :: (ws ++ p0) :: ps0 := by
        rw [show w ++ [c] ++ ',' :: ws ++ rest = (w ++ [c]) ++ (',' :: (ws ++ rest)) by simp]
        rw [splitComma_append (w ++ [c]) hitem (',' :: (ws ++ rest))
          [] (splitComma (ws ++ rest)) (by rw [splitComma]; rw [if_pos (by decide)])]
        rw [splitComma_append ws hwsf rest p0 ps0 hr]
        simp
      unfold isCanonicalAnswer at ih ⊢
      rw [hsplit]
      rw [hr] at ih
      simp only [Bool.and_eq_true, List.all_eq_true] at ih ⊢
      obtain ⟨hp0, hps0⟩ := ih
      refine ⟨(fullOptItem_iff _).mpr ⟨w, c, rfl, hw, hc⟩, ?_⟩
      intro q hq
      rcases List.mem_cons.mp hq with rfl | h2
      · rw [dropWhile_append_all pyIsSpace ws p0 hws]
        rw [item_dropWhile p0 hp0]
        exact hp0
      · exact hps0 q h2

/- Soundness of the search: a returned letter comes from an occurrence of
   "option" (case-insensitive), optional whitespace, letter. -/
theorem searchOptionLetter_sound :
    ∀ (l : List Char) (c0 : Char), searchOptionLetter l = some c0 →
      ∃ pre w ws suf, l = pre ++ w ++ ws ++ c0 :: suf ∧
        w.map Char.toLower = ("option" : String).data ∧
        (∀ x ∈ ws, pyIsSpace x = true) ∧ optLetter c0 = true := by
  intro l
  induction l with
  | nil => intro c0 h; cases h
  | cons a rest ih =>
    intro c0 h
    rw [searchOptionLetter] at h
    cases hm : matchCI ("option" : String).data (a :: rest) with
    | some rem =>
      rw [hm] at h
      dsimp only at h
      cases hd : rem.dropWhile pyIsSpace with
      | cons c2 t2 =>
        rw [hd] at h
        dsimp only at h
        by_cases hc2 : optLetter c2 = true
        · rw [if_pos hc2] at h
          injection h with h0
          subst h0
          obtain ⟨w, hl, hw⟩ := (matchCI_some_iff _ _ _).mp hm
          refine ⟨[], w, rem.takeWhile pyIsSpace, t2, ?_, hw,
            fun x hx => List.mem_takeWhile_imp hx, hc2⟩
          rw [List.nil_append, hl]
          have hrw : rem.takeWhile pyIsSpace ++ rem.dropWhile pyIsSpace = rem :=
            List.takeWhile_append_dropWhile pyIsSpace rem
          rw [hd] at hrw
          conv_lhs => rw [← hrw]
          simp
        · rw [if_neg hc2] at h
          obtain ⟨pre, w, ws, suf, hl, hw, hws, hc⟩ := ih c0 h
          exact ⟨a :: pre, w, ws, suf, by simp [hl], hw, hws, hc⟩
      | nil =>
        rw [hd] at h
        dsimp only at h
        obtain ⟨pre, w, ws, suf, hl, hw, hws, hc⟩ := ih c0 h
        exact ⟨a :: pre, w, ws, suf, by simp [hl], hw, hws, hc⟩
    | none =>
      rw [hm] at h
      dsimp only at h
      obtain ⟨pre, w, ws, suf, hl, hw, hws, hc⟩ := ih c0 h
      exact ⟨a :: pre, w, ws, suf, by simp [hl], hw, hws, hc⟩

/- Completeness of the search: any such occurrence makes it succeed. -/
theorem searchOptionLetter_complete :
    ∀ (pre w ws : List Char) (c : Char) (suf : List Char),
      w.map Char.toLower = ("option" : String).data →
      (∀ x ∈ ws, pyIsSpace x = true) → optLetter c = true →
      (searchOptionLetter (pre ++ w ++ ws ++ c :: suf)).isSome = true := by
  intro pre
  induction pre with
  | nil =>
    intro w ws c suf hw hws hc
    obtain ⟨x, xs, rfl⟩ : ∃ x xs, w = x :: xs := by
      cases w with
      | nil => exact absurd hw (by decide)
      | cons x xs => exact ⟨x, xs, rfl⟩
    have hm : matchCI ("option" : String).data ((x :: xs) ++ (ws ++ c :: suf)) =
        some (ws ++ c :: suf) :=
      (matchCI_some_iff _ _ _).mpr ⟨x :: xs, rfl, hw⟩
    have hshape : ([] : List Char) ++ (x :: xs) ++ ws ++ c :: suf =
        x :: (xs ++ (ws ++ c :: suf)) := by simp
    rw [hshape]
    rw [searchOptionLetter]
    rw [show matchCI ("option" : String).data (x :: (xs ++ (ws ++ c :: suf))) =
        some (ws ++ c :: suf) by rw [← hm]; simp]
    dsimp only
    have hdrop : (ws ++ c :: suf).dropWhile pyIsSpace = c :: suf := by
      rw [dropWhile_append_all pyIsSpace ws _ hws]
      rw [List.dropWhile_cons, if_neg (by simp [optLetter_not_space c hc])]
    rw [hdrop]
    dsimp only
    rw [if_pos hc]
    rfl
  | cons a pre2 ih =>
    intro w ws c suf hw hws hc
    have hshape : (a :: pre2) ++ w ++ ws ++ c :: suf =
        a :: (pre2 ++ w ++ ws ++ c :: suf) := by simp
    rw [hshape]
    rw [searchOptionLetter]
    cases hm : matchCI ("option" : String).data (a :: (pre2 ++ w ++ ws ++ c :: suf)) with
    | some rem =>
      dsimp only
      cases hd : rem.dropWhile pyIsSpace with
      | cons c2 t2 =>
        dsimp only
        by_cases hc2 : optLetter c2 = true
        · rw [if_pos hc2]; rfl
        · rw [if_neg hc2]
          exact ih w ws c suf hw hws hc
      | nil =>
        dsimp only
        exact ih w ws c suf hw hws hc
    | none => exact ih w ws c suf hw hws hc

/- One step of normalize_answer on a truthy string input. -/
theorem normalize_answer_str_truthy (s : String) (h : s ≠ "") :
    normalize_answer (Val.str s) =
      (if isCanonicalAnswer (stripChars s.data) then
        canonicalizeAnswerParts (stripChars s.data)
      else if bareLetterChk (stripChars s.data) then
        "option " ++ pyUpper ⟨stripChars s.data⟩
      else match searchOptionLetter (stripChars s.data) with
        | some c => "option " ++ (⟨[c.toUpper]⟩ : String)
        | none => ⟨stripChars s.data⟩) := by
  rw [normalize_answer]
  · rw [show (Val.str s).truthy = true by simp [Val.truthy, h]]
    rfl
  · intro hh; cases hh
  · intro v vs hh; cases hh

/- The elementwise treatment of list answers. -/
theorem normalizeAnswerList_eq_map :
    ∀ l : List Val, normalizeAnswerList l = l.map normalize_answer := by
  intro l
  induction l with
  | nil => rfl
  | cons v vs ih => rw [normalizeAnswerList, ih, List.map_cons]

/- A declarative canonical answer is never the empty character list. -/
theorem canonLetters_src_ne_nil {l cs : List Char} (h : CanonLettersP l cs) : l ≠ [] := by
  cases h <;> simp

/- A single character is never a full canonical answer. -/
theorem bare_not_canonical (c : Char) : isCanonicalAnswer [c] = false := by
  unfold isCanonicalAnswer
  cases hs : splitComma [c] with
  | nil => exact absurd hs (splitComma_ne_nil [c])
  | cons p ps =>
    by_cases hc : c = ','
    · subst hc
      rw [show splitComma [','] = [[], []] from rfl] at hs
      injection hs with h1 h2
      rw [← h1, ← h2]
      rfl
    · rw [splitComma_comma_free [c] (by intro hm; simp at hm; exact hc hm.symm)] at hs
      injection hs with h1 h2
      rw [← h1, ← h2]
      simp [fullOptItem, matchOptItem, optionSpace, matchCI]

/- The empty string input gives the empty answer. -/
theorem normalize_answer_empty : normalize_answer (Val.str "") = "" := by
  rw [normalize_answer]
  · rfl
  · intro hh; cases hh
  · intro v vs hh; cases hh

/-- C8 (amended): normalize_answer first stringifies and trims the input.
The canonical comma-joined list shape (characterized declaratively by
CanonLettersP, matching the regular expression) is detected on the whole
trimmed input and canonicalized elementwise to "option X" joined by ", ";
a bare letter A-E is canonicalized to "option X"; otherwise the shape
"option"-whitespace-letter is looked for by substring search ANYWHERE in the
trimmed input (characterized by the existential decomposition below), not as
a full-string shape; only if all of that fails is the input returned, and
then in trimmed form, not verbatim.  List inputs are normalized elementwise
and joined with ", ". -/
theorem claim_c8_amended (s : String) :
    (isCanonicalAnswer (stripChars s.data) = true ↔
      ∃ cs, CanonLettersP (stripChars s.data) cs) ∧
    (∀ cs, CanonLettersP (stripChars s.data) cs →
      normalize_answer (Val.str s) =
        String.intercalate ", " (cs.map (fun c => "option " ++ (⟨[c.toUpper]⟩ : String)))) ∧
    (∀ c, stripChars s.data = [c] → optLetter c = true →
      normalize_answer (Val.str s) = "option " ++ (⟨[c.toUpper]⟩ : String)) ∧
    ((searchOptionLetter (stripChars s.data)).isSome = true ↔
      ∃ pre w ws c suf, stripChars s.data = pre ++ w ++ ws ++ c :: suf ∧
        w.map Char.toLower = ("option" : String).data ∧
        (∀ x ∈ ws, pyIsSpace x = true) ∧ optLetter c = true) ∧
    (isCanonicalAnswer (stripChars s.data) = false →
      bareLetterChk (stripChars s.data) = false →
      searchOptionLetter (stripChars s.data) = none →
      normalize_answer (Val.str s) = ⟨stripChars s.data⟩) ∧
    (∀ l : List Val, normalize_answer (Val.list l) =
      (if l.isEmpty then "" else String.intercalate ", " (l.map normalize_answer))) := by
  refine ⟨isCanonicalAnswer_iff _, ?_, ?_, ?_, ?_, ?_⟩
  · intro cs h
    have hs : s ≠ "" := by
      rintro rfl
      exact (canonLetters_src_ne_nil h) rfl
    rw [normalize_answer_str_truthy s hs]
    rw [if_pos ((isCanonicalAnswer_iff _).mpr ⟨cs, h⟩)]
    exact canonicalize_of_canonLetters h
  · intro c hc hletter
    have hs : s ≠ "" := by
      rintro rfl
      rw [show stripChars ("" : String).data = [] from rfl] at hc
      cases hc
    rw [normalize_answer_str_truthy s hs, hc]
    rw [if_neg (by simp [bare_not_canonical c])]
    rw [if_pos (by simp [bareLetterChk, hletter])]
    rfl
  · constructor
    · intro h
      obtain ⟨c0, hc0⟩ := Option.isSome_iff_exists.mp h
      obtain ⟨pre, w, ws, suf, hl, hw, hws, hc⟩ := searchOptionLetter_sound _ c0 hc0
      exact ⟨pre, w, ws, c0, suf, hl, hw, hws, hc⟩
    · rintro ⟨pre, w, ws, c, suf, heq, hw, hws, hc⟩
      rw [heq]
      exact searchOptionLetter_complete pre w ws c suf hw hws hc
  · intro h1 h2 h3
    by_cases hs : s = ""
    · subst hs
      rw [normalize_answer_empty]
      rfl
    · rw [normalize_answer_str_truthy s hs]
      rw [if_neg (by simp [h1]), if_neg (by simp [h2]), h3]
  · intro l
    cases l with
    | nil => rfl
    | cons v vs =>
      rw [show normalize_answer (Val.list (v :: vs)) =
          String.intercalate ", " (normalizeAnswerList (v :: vs)) from rfl]
      rw [normalizeAnswerList_eq_map]
      rfl

/-- C8 witness: the amended theorem applied at the input " b ": the trimmed
input is the bare letter b, canonicalized to "option B". -/
theorem claim_c8_witness : normalize_answer (Val.str " b ") = "option B" :=
  (claim_c8_amended " b ").2.2.1 'b' rfl rfl

/- Field resolution on the canonical documents. -/
theorem fv_canon_topic (t s : String) (qs : List CanonQData) :
    first_value (mkCanonDoc t s qs) TOPIC_KEYS = some (Val.str t) := by
  simp +decide [mkCanonDoc, first_value, lowerMapGet, pyItems, pyKeys, pyLookup,
    TOPIC_KEYS, List.filter_cons, List.foldl_cons, List.filterMap_cons,
    Val.isNull, List.getLast?_cons_cons, List.getLast?_singleton]

theorem fv_canon_subtopic (t s : String) (qs : List CanonQData) :
    first_value (mkCanonDoc t s qs) SUBTOPIC_KEYS = some (Val.str s) := by
  simp +decide [mkCanonDoc, first_value, lowerMapGet, pyItems, pyKeys, pyLookup,
    SUBTOPIC_KEYS, List.filter_cons, List.foldl_cons, List.filterMap_cons,
    Val.isNull, List.getLast?_cons_cons, List.getLast?_singleton]

theorem fv_canon_questions (t s : String) (qs : List CanonQData) :
    first_value (mkCanonDoc t s qs) QUESTIONS_KEYS =
      some (Val.list (qs.map mkCanonQVal)) := by
  simp +decide [mkCanonDoc, first_value, lowerMapGet, pyItems, pyKeys, pyLookup,
    QUESTIONS_KEYS, List.filter_cons, List.foldl_cons, List.filterMap_cons,
    Val.isNull, List.getLast?_cons_cons, List.getLast?_singleton]

theorem fv_canon_qno (d : CanonQData) :
    first_value (mkCanonQVal d).dictEntries Q_NO_KEYS = some (Val.str d.qid) := by
  simp +decide [mkCanonQVal, Val.dictEntries, first_value, lowerMapGet, pyItems, pyKeys,
    pyLookup, Q_NO_KEYS, List.filter_cons, List.foldl_cons, List.filterMap_cons,
    Val.isNull, List.getLast?_cons_cons, List.getLast?_singleton]

theorem fv_canon_text (d : CanonQData) :
    first_value (mkCanonQVal d).dictEntries Q_TEXT_KEYS = some (Val.str d.text) := by
  simp +decide [mkCanonQVal, Val.dictEntries, first_value, lowerMapGet, pyItems, pyKeys,
    pyLookup, Q_TEXT_KEYS, List.filter_cons, List.foldl_cons, List.filterMap_cons,
    Val.isNull, List.getLast?_cons_cons, List.getLast?_singleton]

theorem fv_canon_options (d : CanonQData) :
    first_value (mkCanonQVal d).dictEntries Q_OPTIONS_KEYS =
      some (Val.dict ((optPairs d).map (fun p => (p.1, Val.str p.2)))) := by
  simp +decide [mkCanonQVal, Val.dictEntries, first_value, lowerMapGet, pyItems, pyKeys,
    pyLookup, Q_OPTIONS_KEYS, List.filter_cons, List.foldl_cons, List.filterMap_cons,
    Val.isNull, List.getLast?_cons_cons, List.getLast?_singleton]

theorem fv_canon_answer (d : CanonQData) :
    first_value (mkCanonQVal d).dictEntries Q_ANSWER_KEYS = some (Val.str (ansStr d)) := by
  simp +decide [mkCanonQVal, Val.dictEntries, first_value, lowerMapGet, pyItems, pyKeys,
    pyLookup, Q_ANSWER_KEYS, List.filter_cons, List.foldl_cons, List.filterMap_cons,
    Val.isNull, List.getLast?_cons_cons, List.getLast?_singleton]

theorem fv_canon_expl (d : CanonQData) :
    first_value (mkCanonQVal d).dictEntries Q_EXPL_KEYS = some (Val.str d.expl) := by
  simp +decide [mkCanonQVal, Val.dictEntries, first_value, lowerMapGet, pyItems, pyKeys,
    pyLookup, Q_EXPL_KEYS, List.filter_cons, List.foldl_cons, List.filterMap_cons,
    Val.isNull, List.getLast?_cons_cons, List.getLast?_singleton]

theorem fv_canon_diff (d : CanonQData) :
    first_value (mkCanonQVal d).dictEntries Q_DIFF_KEYS = some (Val.str d.diff) := by
  simp +decide [mkCanonQVal, Val.dictEntries, first_value, lowerMapGet, pyItems, pyKeys,
    pyLookup, Q_DIFF_KEYS, List.filter_cons, List.foldl_cons, List.filterMap_cons,
    Val.isNull, List.getLast?_cons_cons, List.getLast?_singleton]

theorem fv_canon_qtopic (d : CanonQData) :
    first_value (mkCanonQVal d).dictEntries Q_TOPIC_KEYS = some (Val.str d.qtopic) := by
  simp +decide [mkCanonQVal, Val.dictEntries, first_value, lowerMapGet, pyItems, pyKeys,
    pyLookup, Q_TOPIC_KEYS, List.filter_cons, List.foldl_cons, List.filterMap_cons,
    Val.isNull, List.getLast?_cons_cons, List.getLast?_singleton]

theorem fv_canon_qsub (d : CanonQData) :
    first_value (mkCanonQVal d).dictEntries Q_SUBTOPIC_KEYS = some (Val.str d.qsub) := by
  simp +decide [mkCanonQVal, Val.dictEntries, first_value, lowerMapGet, pyItems, pyKeys,
    pyLookup, Q_SUBTOPIC_KEYS, List.filter_cons, List.foldl_cons, List.filterMap_cons,
    Val.isNull, List.getLast?_cons_cons, List.getLast?_singleton]

theorem fv_canon_exam (d : CanonQData) :
    first_value (mkCanonQVal d).dictEntries Q_EXAM_KEYS = some (Val.str (examStr d)) := by
  simp +decide [mkCanonQVal, Val.dictEntries, first_value, lowerMapGet, pyItems, pyKeys,
    pyLookup, Q_EXAM_KEYS, List.filter_cons, List.foldl_cons, List.filterMap_cons,
    Val.isNull, List.getLast?_cons_cons, List.getLast?_singleton]

/- Resolve-then-default on a string field with a trimmed value reproduces the
   value (empty values fall back to the empty default). -/
theorem stripStr_orDefault (x : String) (hx : pyStrip x = x) :
    stripStr (orDefault (some (Val.str x)) (Val.str "")) = x := by
  by_cases he : x = ""
  · subst he; rfl
  · rw [orDefault]
    rw [if_pos (by simp [Val.truthy, he])]
    show pyStrip x = x
    exact hx

/- Difficulty fixpoint on the three canonical values. -/
theorem normalize_difficulty_fix (x : String) (hx : x ∈ VALID_DIFFICULTIES) :
    normalize_difficulty (Val.str x) = x := by
  simp [VALID_DIFFICULTIES] at hx
  rcases hx with rfl | rfl | rfl <;> rfl

/- A digit character is not whitespace. -/
theorem digit_not_space (c : Char) (h : c.isDigit = true) : pyIsSpace c = false := by
  cases hs : pyIsSpace c
  · rfl
  · simp [pyIsSpace] at hs
    rcases hs with ((((rfl | rfl) | rfl) | rfl) | rfl) | rfl <;> simp at h

/- dropWhile is the identity when the head fails the predicate. -/
theorem dropWhile_eq_self_of_head (p : Char → Bool) (l : List Char)
    (h : ∀ c, l.head? = some c → p c = false) : l.dropWhile p = l := by
  cases l with
  | nil => rfl
  | cons c cs => rw [List.dropWhile_cons, if_neg (by simp [h c rfl])]

/- strip is the identity on all-non-whitespace lists. -/
theorem stripChars_of_nonspace (l : List Char) (h : ∀ c ∈ l, pyIsSpace c = false) :
    stripChars l = l := by
  unfold stripChars
  rw [dropWhile_eq_self_of_head pyIsSpace l
    (fun c hc => h c (by cases l with
      | nil => cases hc
      | cons a as => injection hc with h0; rw [← h0]; exact List.mem_cons_self _ _))]
  rw [dropWhile_eq_self_of_head pyIsSpace l.reverse
    (fun c hc => h c (by
      have hm : c ∈ l.reverse := by
        cases hr : l.reverse with
        | nil => rw [hr] at hc; cases hc
        | cons a as =>
          rw [hr] at hc
          injection hc with h0
          rw [h0]
          exact List.mem_cons_self _ _
      exact List.mem_reverse.mp hm))]
  exact List.reverse_reverse l

/- The accumulator of the digit renderer factors out. -/
theorem natToDigitsAux_acc :
    ∀ (fuel m : Nat) (acc : List Char),
      natToDigitsAux fuel m acc = natToDigitsAux fuel m [] ++ acc := by
  intro fuel
  induction fuel with
  | zero => intro m acc; rfl
  | succ f ih =>
    intro m acc
    rw [natToDigitsAux, natToDigitsAux]
    by_cases hm : m < 10
    · rw [if_pos hm, if_pos hm]
      rfl
    · rw [if_neg hm, if_neg hm]
      rw [ih (m / 10) (Char.ofNat (48 + m % 10) :: acc),
        ih (m / 10) [Char.ofNat (48 + m % 10)]]
      simp

/- For a positive number, the rendering is nonempty and starts with a
   nonzero digit. -/
theorem natToDigitsAux_head :
    ∀ (fuel m : Nat), 0 < fuel → m < 10 ^ fuel → 1 ≤ m →
      ∃ c rest, natToDigitsAux fuel m [] = c :: rest ∧ c ≠ '0' := by
  intro fuel
  induction fuel with
  | zero => intro m h0; omega
  | succ f ih =>
    intro m _ hmf hm1
    rw [natToDigitsAux]
    by_cases h10 : m < 10
    · rw [if_pos h10]
      refine ⟨Char.ofNat (48 + m), [], rfl, ?_⟩
      interval_cases m <;> decide
    · rw [if_neg h10]
      have hf1 : 0 < f := by
        rcases Nat.eq_zero_or_pos f with hf0 | hf1
        · subst hf0; simp [pow_succ, pow_zero] at hmf; omega
        · exact hf1
      have hdiv : m / 10 < 10 ^ f := by
        rw [Nat.div_lt_iff_lt_mul (by omega : 0 < 10)]
        calc m < 10 ^ (f + 1) := hmf
        _ = 10 ^ f * 10 := by rw [pow_succ]
      have hd1 : 1 ≤ m / 10 := by
        rw [Nat.le_div_iff_mul_le (by omega : 0 < 10)]
        omega
      obtain ⟨c, rest, hcr, hc⟩ := ih (m / 10) hf1 hdiv hd1
      rw [natToDigitsAux_acc f (m / 10) [Char.ofNat (48 + m % 10)], hcr]
      exact ⟨c, rest ++ [Char.ofNat (48 + m % 10)], by simp, hc⟩

/- The decimal value of a rendered digit. -/
theorem digitChar_toNat (r : Nat) (h : r < 10) : (Char.ofNat (48 + r)).toNat = 48 + r := by
  interval_cases r <;> decide

/- The rendering round-trips through the digit-list value. -/
theorem digitsVal_aux :
    ∀ (fuel m : Nat), 0 < fuel → m < 10 ^ fuel →
      digitsVal (natToDigitsAux fuel m []) = m := by
  intro fuel
  induction fuel with
  | zero => intro m h0; omega
  | succ f ih =>
    intro m _ hmf
    rw [natToDigitsAux]
    by_cases h10 : m < 10
    · rw [if_pos h10]
      unfold digitsVal
      simp [digitChar_toNat m h10]
    · rw [if_neg h10]
      have hf1 : 0 < f := by
        rcases Nat.eq_zero_or_pos f with hf0 | hf1
        · subst hf0; simp [pow_succ, pow_zero] at hmf; omega
        · exact hf1
      have hdiv : m / 10 < 10 ^ f := by
        rw [Nat.div_lt_iff_lt_mul (by omega : 0 < 10)]
        calc m < 10 ^ (f + 1) := hmf
        _ = 10 ^ f * 10 := by rw [pow_succ]
      rw [natToDigitsAux_acc f (m / 10) [Char.ofNat (48 + m % 10)]]
      unfold digitsVal
      rw [List.foldl_append]
      have := ih (m / 10) hf1 hdiv
      unfold digitsVal at this
      rw [this]
      simp only [List.foldl_cons, List.foldl_nil]
      rw [digitChar_toNat (m % 10) (Nat.mod_lt _ (by omega))]
      omega

/- str() of a string value. -/
theorem toStr_str (s : String) : Val.toStr (Val.str s) = s := by
  rw [Val.toStr]

/- zfill 3 on a short digit-only string: the data is an explicit zero pad. -/
theorem zfill3_data (s : String) (hd : ∀ c ∈ s.data, c.isDigit = true)
    (hl : s.data.length ≤ 3) :
    (zfill 3 s).data = List.replicate (3 - s.data.length) '0' ++ s.data := by
  obtain ⟨l⟩ := s
  unfold zfill
  dsimp only at hd hl ⊢
  by_cases h3 : 3 ≤ l.length
  · rw [if_pos h3]
    rw [Nat.sub_eq_zero_of_le h3]
    simp
  · rw [if_neg h3]
    cases l with
    | nil => simp
    | cons c rest =>
      dsimp only
      have hc := hd c (List.mem_cons_self _ _)
      rw [digit_not_sign c hc]
      simp only [Bool.false_eq_true, if_false]

/- For a positive number below 1000, natStr starts with a nonzero digit and
   its digit-list value is the number itself. -/
theorem natStr_pos (n : Nat) (h1 : 1 ≤ n) (h1000 : n < 1000) :
    (∃ c rest, (natStr n).data = c :: rest ∧ c ≠ '0') ∧
      digitsVal (natStr n).data = n := by
  have h3 : n < 10 ^ 3 := by norm_num; omega
  have hf : n < 10 ^ (n + 1) :=
    lt_of_lt_of_le (Nat.lt_pow_self (by norm_num) n)
      (Nat.pow_le_pow_right (by norm_num) (by omega))
  have hdata : (natStr n).data = natToDigitsAux 3 n [] := by
    simp only [natStr]
    exact natToDigitsAux_fuel (n + 1) 3 n [] (by omega) (by omega) hf h3
  rw [hdata]
  exact ⟨natToDigitsAux_head 3 n (by omega) h3 h1, digitsVal_aux 3 n (by omega) h3⟩

/- A canonical zero-padded id is never the empty string. -/
theorem zfill3_ne_empty (n : Nat) (hn : n < 1000) :
    zfill 3 (intStr (Int.ofNat n)) ≠ "" := by
  have hs := natStr_small n hn
  have hlen := (zfill3_digits (natStr n) hs.2 hs.1).1
  intro heq
  rw [show intStr (Int.ofNat n) = natStr n from rfl] at heq
  rw [heq] at hlen
  exact absurd hlen (by decide)

/- pad_question_no is the identity on canonical zero-padded ids. -/
theorem pad_canonical (n : Nat) (hn : n < 1000) :
    pad_question_no (Val.str (zfill 3 (intStr (Int.ofNat n)))) =
      zfill 3 (intStr (Int.ofNat n)) := by
  rcases Nat.eq_zero_or_pos n with rfl | hpos
  · decide
  · have hsmall := natStr_small n hn
    obtain ⟨⟨c, rest, hcr, hc0⟩, hval⟩ := natStr_pos n hpos hn
    have hdig : ∀ ch ∈ (zfill 3 (natStr n)).data, ch.isDigit = true :=
      (zfill3_digits (natStr n) hsmall.2 hsmall.1).2
    have hzd := zfill3_data (natStr n) hsmall.2 hsmall.1
    have hdigs : ∀ ch ∈ c :: rest, ch.isDigit = true := by
      intro ch hch
      exact hsmall.2 ch (by rw [hcr]; exact hch)
    have hlstrip : lstripZerosOr0 ((zfill 3 (natStr n)).data) = c :: rest := by
      rw [hzd, hcr]
      simp only [lstripZerosOr0]
      rw [dropWhile_append_all (fun c => c == '0') _ (c :: rest)
        (fun x hx => by rw [List.eq_of_mem_replicate hx]; rfl)]
      have hcne : ¬((c == '0') = true) := by simp [hc0]
      rw [List.dropWhile_cons, if_neg hcne]
      rfl
    have hpadnum : padNum (Val.str (zfill 3 (natStr n))) = some (Int.ofNat n) := by
      unfold padNum
      rw [toStr_str]
      rw [stripChars_of_nonspace ((zfill 3 (natStr n)).data)
        (fun ch hch => digit_not_space ch (hdig ch hch))]
      rw [hlstrip]
      simp only [pyInt?]
      rw [stripChars_of_nonspace (c :: rest)
        (fun ch hch => digit_not_space ch (hdigs ch hch))]
      dsimp only
      have hsign := digit_not_sign c (hdigs c (List.mem_cons_self _ _))
      rw [Bool.or_eq_false_iff] at hsign
      have hneg1 : ¬((c == '-') = true) := by simp [hsign.2]
      have hneg2 : ¬((c == '+') = true) := by simp [hsign.1]
      rw [if_neg hneg1, if_neg hneg2]
      have hcond : (!(c :: rest).isEmpty && (c :: rest).all Char.isDigit) = true := by
        rw [Bool.and_eq_true]
        refine ⟨rfl, ?_⟩
        rw [List.all_eq_true]
        exact fun ch hch => hdigs ch hch
      rw [if_pos hcond]
      rw [← hcr, hval]
      rfl
    unfold pad_question_no
    rw [show intStr (Int.ofNat n) = natStr n from rfl]
    rw [hpadnum]
    rfl

/- The five canonical upper-case answer letters are option letters. -/
theorem upper_letter_opt (c : Char) (h : c ∈ (['A', 'B', 'C', 'D', 'E'] : List Char)) :
    optLetter c = true := by
  simp at h
  rcases h with rfl | rfl | rfl | rfl | rfl <;> decide

/- The canonical upper-case letters are fixed by toUpper. -/
theorem upper_letter_toUpper (c : Char) (h : c ∈ (['A', 'B', 'C', 'D', 'E'] : List Char)) :
    c.toUpper = c := by
  simp at h
  rcases h with rfl | rfl | rfl | rfl | rfl <;> decide

/- The pattern word is already lower-case. -/
theorem optionSpace_lower : optionSpace.map Char.toLower = optionSpace := by decide

/- Data of one rebuilt answer item. -/
theorem optItem_data (c : Char) :
    (("option " ++ (⟨[c]⟩ : String)) : String).data = optionSpace ++ [c] := rfl

/- One step of the canonical answer string join. -/
theorem ans_intercalate_step (c c2 : Char) (cs2 : List Char) :
    String.intercalate ", " ((c :: c2 :: cs2).map (fun x => "option " ++ (⟨[x]⟩ : String)))
      = ("option " ++ (⟨[c]⟩ : String)) ++ ", " ++
        String.intercalate ", " ((c2 :: cs2).map (fun x => "option " ++ (⟨[x]⟩ : String))) := by
  simp only [List.map_cons]
  exact intercalate_cons_cons ", " ("option " ++ (⟨[c]⟩ : String))
    ("option " ++ (⟨[c2]⟩ : String)) (cs2.map (fun x => "option " ++ (⟨[x]⟩ : String)))

/- The canonical answer string of a nonempty upper-case letter list satisfies
   the declarative canonical shape, with exactly those letters. -/
theorem canonLetters_of_upper :
    ∀ (cs : List Char) (c : Char), optLetter c = true → (∀ x ∈ cs, optLetter x = true) →
      CanonLettersP (String.intercalate ", "
        ((c :: cs).map (fun x => "option " ++ (⟨[x]⟩ : String)))).data (c :: cs) := by
  intro cs
  induction cs with
  | nil =>
    intro c hc _
    rw [show String.intercalate ", " ([c].map (fun x => "option " ++ (⟨[x]⟩ : String)))
      = "option " ++ (⟨[c]⟩ : String) from rfl]
    rw [optItem_data]
    exact CanonLettersP.single optionSpace c optionSpace_lower hc
  | cons c2 cs2 ih =>
    intro c hc hall
    have hc2 : optLetter c2 = true := hall c2 (List.mem_cons_self _ _)
    have hall2 : ∀ x ∈ cs2, optLetter x = true :=
      fun x hx => hall x (List.mem_cons_of_mem _ hx)
    have hmore := CanonLettersP.more optionSpace c [' ']
      ((String.intercalate ", "
        ((c2 :: cs2).map (fun x => "option " ++ (⟨[x]⟩ : String)))).data)
      (c2 :: cs2) optionSpace_lower hc
      (by intro x hx; simp at hx; subst hx; rfl) (ih c2 hc2 hall2)
    have hdata : (("option " ++ (⟨[c]⟩ : String)) ++ ", " ++
        String.intercalate ", "
          ((c2 :: cs2).map (fun x => "option " ++ (⟨[x]⟩ : String)))).data
        = optionSpace ++ [c] ++ ',' :: [' '] ++
          (String.intercalate ", "
            ((c2 :: cs2).map (fun x => "option " ++ (⟨[x]⟩ : String)))).data := by
      simp only [String.data_append, optItem_data]
      simp [optionSpace, List.append_assoc]
    rw [ans_intercalate_step, hdata]
    exact hmore

/- The canonical answer string starts with a non-space character and ends
   with a non-space character. -/
theorem ans_data_shape :
    ∀ (cs : List Char) (c : Char), optLetter c = true → (∀ x ∈ cs, optLetter x = true) →
      ∃ mid x, (String.intercalate ", "
          ((c :: cs).map (fun y => "option " ++ (⟨[y]⟩ : String)))).data
        = 'o' :: mid ++ [x] ∧ pyIsSpace x = false := by
  intro cs
  induction cs with
  | nil =>
    intro c hc _
    refine ⟨"ption ".data, c, ?_, optLetter_not_space c hc⟩
    rw [show String.intercalate ", " ([c].map (fun y => "option " ++ (⟨[y]⟩ : String)))
      = "option " ++ (⟨[c]⟩ : String) from rfl]
    rw [optItem_data]
    rw [show optionSpace = 'o' :: "ption ".data from by decide]
  | cons c2 cs2 ih =>
    intro c hc hall
    obtain ⟨mid, x, hmid, hx⟩ := ih c2 (hall c2 (List.mem_cons_self _ _))
      (fun y hy => hall y (List.mem_cons_of_mem _ hy))
    refine ⟨"ption ".data ++ [c] ++ ',' :: ' ' :: 'o' :: mid, x, ?_, hx⟩
    rw [ans_intercalate_step]
    simp only [String.data_append, optItem_data]
    rw [hmid]
    simp [List.append_assoc]

/- normalize_answer is the identity on canonical answer strings built from
   upper-case letters A-E. -/
theorem normalize_answer_fix (ls : List Char)
    (h : ∀ c ∈ ls, c ∈ (['A', 'B', 'C', 'D', 'E'] : List Char)) :
    normalize_answer (Val.str (String.intercalate ", "
        (ls.map (fun c => "option " ++ (⟨[c]⟩ : String))))) =
      String.intercalate ", " (ls.map (fun c => "option " ++ (⟨[c]⟩ : String))) := by
  cases ls with
  | nil => exact normalize_answer_empty
  | cons c cs =>
    have hc : optLetter c = true := upper_letter_opt c (h c (List.mem_cons_self _ _))
    have hall : ∀ y ∈ cs, optLetter y = true :=
      fun y hy => upper_letter_opt y (h y (List.mem_cons_of_mem _ hy))
    have hP := canonLetters_of_upper cs c hc hall
    obtain ⟨mid, x, hshape, hxs⟩ := ans_data_shape cs c hc hall
    have hstrip : stripChars (String.intercalate ", "
        ((c :: cs).map (fun y => "option " ++ (⟨[y]⟩ : String)))).data
        = (String.intercalate ", "
            ((c :: cs).map (fun y => "option " ++ (⟨[y]⟩ : String)))).data := by
      rw [hshape]
      exact stripChars_no_edge 'o' mid x (by decide) hxs
    have hSne : String.intercalate ", "
        ((c :: cs).map (fun y => "option " ++ (⟨[y]⟩ : String))) ≠ "" := by
      intro he
      rw [he, show ("" : String).data = [] from rfl] at hshape
      have hlen := congrArg List.length hshape
      simp only [List.length_append, List.length_cons, List.length_nil] at hlen
      omega
    rw [normalize_answer_str_truthy _ hSne, hstrip]
    rw [if_pos ((isCanonicalAnswer_iff _).mpr ⟨c :: cs, hP⟩)]
    rw [canonicalize_of_canonLetters hP]
    congr 1
    apply List.map_congr_left
    intro a ha
    rw [upper_letter_toUpper a (h a ha)]

/- The four canonical exam tags are nonempty, comma-free and
   whitespace-free, and each is found (as itself) by the case-insensitive
   scan over VALID_EXAMS. -/
theorem exam_tag_ne_empty (t : String) (h : t ∈ VALID_EXAMS) : t ≠ "" := by
  simp [VALID_EXAMS] at h
  rcases h with rfl | rfl | rfl | rfl <;> decide

theorem exam_tag_comma_free (t : String) (h : t ∈ VALID_EXAMS) : ',' ∉ t.data := by
  simp [VALID_EXAMS] at h
  rcases h with rfl | rfl | rfl | rfl <;> decide

theorem exam_tag_nonspace (t : String) (h : t ∈ VALID_EXAMS) :
    ∀ c ∈ t.data, pyIsSpace c = false := by
  simp [VALID_EXAMS] at h
  rcases h with rfl | rfl | rfl | rfl <;> decide

theorem exam_tag_find (t : String) (h : t ∈ VALID_EXAMS) :
    VALID_EXAMS.find? (fun e => pyLower e == pyLower t) = some t := by
  simp [VALID_EXAMS] at h
  rcases h with rfl | rfl | rfl | rfl <;> decide

/- filterMap with a pointwise-identity function is the identity. -/
theorem filterMap_id_of (l : List String) (f : String → Option String)
    (h : ∀ x ∈ l, f x = some x) : l.filterMap f = l := by
  induction l with
  | nil => rfl
  | cons a as ih =>
    rw [List.filterMap_cons, h a (List.mem_cons_self _ _)]
    dsimp only
    rw [ih (fun x hx => h x (List.mem_cons_of_mem _ hx))]

/- Splitting the canonical comma-joined tag list recovers the tags after
   trimming. -/
theorem splitComma_intercalate :
    ∀ (ts : List String) (t : String), (∀ x ∈ t :: ts, x ∈ VALID_EXAMS) →
      ∃ p ps, splitComma (String.intercalate ", " (t :: ts)).data = p :: ps ∧
        (p :: ps).map (fun q => (⟨stripChars q⟩ : String)) = t :: ts := by
  intro ts
  induction ts with
  | nil =>
    intro t hmem
    have ht : t ∈ VALID_EXAMS := hmem t (List.mem_cons_self _ _)
    refine ⟨t.data, [], ?_, ?_⟩
    · rw [show String.intercalate ", " [t] = t from rfl]
      exact splitComma_comma_free t.data (exam_tag_comma_free t ht)
    · simp only [List.map_cons, List.map_nil]
      rw [stripChars_of_nonspace t.data (exam_tag_nonspace t ht)]
  | cons t2 ts2 ih =>
    intro t hmem
    have ht : t ∈ VALID_EXAMS := hmem t (List.mem_cons_self _ _)
    obtain ⟨p, ps, hsp, hmap⟩ := ih t2 (fun x hx => hmem x (List.mem_cons_of_mem _ hx))
    simp only [List.map_cons] at hmap
    rw [List.cons.injEq] at hmap
    obtain ⟨hm1, hm2⟩ := hmap
    have h2 : splitComma (' ' :: (String.intercalate ", " (t2 :: ts2)).data)
        = (' ' :: p) :: ps := by
      rw [splitComma]
      rw [if_neg (by decide)]
      rw [hsp]
    have h3 : splitComma (',' :: ' ' :: (String.intercalate ", " (t2 :: ts2)).data)
        = [] :: (' ' :: p) :: ps := by
      rw [splitComma]
      rw [if_pos (by decide)]
      rw [h2]
    have h4 := splitComma_append t.data (exam_tag_comma_free t ht)
      (',' :: ' ' :: (String.intercalate ", " (t2 :: ts2)).data) [] ((' ' :: p) :: ps) h3
    have hdata : (String.intercalate ", " (t :: t2 :: ts2)).data
        = t.data ++ ',' :: ' ' :: (String.intercalate ", " (t2 :: ts2)).data := by
      rw [intercalate_cons_cons]
      simp only [String.data_append]
      simp [List.append_assoc]
    refine ⟨t.data ++ [], (' ' :: p) :: ps, ?_, ?_⟩
    · rw [hdata]
      exact h4
    · simp only [List.map_cons]
      rw [List.append_nil]
      rw [stripChars_of_nonspace t.data (exam_tag_nonspace t ht)]
      rw [show (' ' :: p) = [' '] ++ p from rfl]
      rw [stripChars_ws_drop [' '] p (by intro x hx; simp at hx; subst hx; rfl)]
      simp only [List.cons.injEq]
      exact ⟨trivial, hm1, hm2⟩

/- normalize_exam is the identity on the canonical comma-joined form of a
   nonempty list of canonical exam tags. -/
theorem normalize_exam_fix (ts : List String) (hne : ts ≠ [])
    (hmem : ∀ x ∈ ts, x ∈ VALID_EXAMS) :
    normalize_exam (Val.str (String.intercalate ", " ts)) =
      String.intercalate ", " ts := by
  obtain ⟨t, ts2, rfl⟩ : ∃ a l, ts = a :: l := by
    cases ts with
    | nil => exact absurd rfl hne
    | cons a l => exact ⟨a, l, rfl⟩
  obtain ⟨p, ps, hsp, hmap⟩ := splitComma_intercalate ts2 t hmem
  have hSne : String.intercalate ", " (t :: ts2) ≠ "" := by
    intro he
    rw [he] at hsp
    rw [show ("" : String).data = [] from rfl] at hsp
    rw [show splitComma [] = [[]] from rfl] at hsp
    injection hsp with h1 h2
    rw [← h1, ← h2] at hmap
    simp only [List.map_cons, List.map_nil] at hmap
    rw [List.cons.injEq] at hmap
    exact exam_tag_ne_empty t (hmem t (List.mem_cons_self _ _))
      (hmap.1.symm.trans (show (⟨stripChars []⟩ : String) = "" from rfl))
  unfold normalize_exam
  have htr : ¬((!(Val.str (String.intercalate ", " (t :: ts2))).truthy) = true) := by
    simp [Val.truthy, hSne]
  rw [if_neg htr]
  dsimp only
  rw [toStr_str]
  rw [hsp]
  rw [hmap]
  rw [filterMap_id_of (t :: ts2) _ (fun x hx => exam_tag_find x (hmem x hx))]
  rfl

/- normalize_options on the canonical option dict trims each value. -/
theorem normalize_options_map (d : CanonQData) :
    normalize_options (Val.dict ((optPairs d).map (fun p => (p.1, Val.str p.2))))
      = (optPairs d).map (fun p => (p.1, pyStrip p.2)) := by
  obtain ⟨qid, text, oa, ob, oc, od, oe, ans, expl, diff, qt, qsb, ex⟩ := d
  rcases oa with _ | va <;> rcases ob with _ | vb <;> rcases oc with _ | vc <;>
    rcases od with _ | vd <;> rcases oe with _ | ve <;>
    simp +decide [normalize_options, optPairs, pyItems, pyKeys, pyLookup, cleanOptKey,
      removeWs, removeOptionSub, lowerChars, lastWord, splitWs, splitWsAux, pyLower,
      pyStrip, toStr_str, OPTION_LABELS, List.filter_cons, List.filterMap_cons,
      List.foldl_cons, List.getLast?_cons_cons, List.getLast?_singleton]

/- Every option pair value comes from one of the five option fields. -/
theorem mem_optPairs (d : CanonQData) (p : String × String) (hp : p ∈ optPairs d) :
    d.optA = some p.2 ∨ d.optB = some p.2 ∨ d.optC = some p.2 ∨
      d.optD = some p.2 ∨ d.optE = some p.2 := by
  simp only [optPairs, List.mem_filterMap, List.mem_cons, List.not_mem_nil, or_false] at hp
  obtain ⟨a, hmem, hmap⟩ := hp
  rw [Option.map_eq_some'] at hmap
  obtain ⟨v, hv, hveq⟩ := hmap
  have hv2 : p.2 = v := by rw [← hveq]
  rcases hmem with rfl | rfl | rfl | rfl | rfl
  · refine Or.inl ?_
    rw [hv2]
    exact hv
  · refine Or.inr (Or.inl ?_)
    rw [hv2]
    exact hv
  · refine Or.inr (Or.inr (Or.inl ?_))
    rw [hv2]
    exact hv
  · refine Or.inr (Or.inr (Or.inr (Or.inl ?_)))
    rw [hv2]
    exact hv
  · refine Or.inr (Or.inr (Or.inr (Or.inr ?_)))
    rw [hv2]
    exact hv

/- Trimming is the identity on already-trimmed option pairs. -/
theorem optPairs_strip (d : CanonQData)
    (ha : ∀ v, d.optA = some v → pyStrip v = v)
    (hb : ∀ v, d.optB = some v → pyStrip v = v)
    (hc : ∀ v, d.optC = some v → pyStrip v = v)
    (hd : ∀ v, d.optD = some v → pyStrip v = v)
    (he : ∀ v, d.optE = some v → pyStrip v = v) :
    (optPairs d).map (fun p => (p.1, pyStrip p.2)) = optPairs d := by
  have hmem : ∀ p ∈ optPairs d, pyStrip p.2 = p.2 := by
    intro p hp
    rcases mem_optPairs d p hp with h | h | h | h | h
    · exact ha p.2 h
    · exact hb p.2 h
    · exact hc p.2 h
    · exact hd p.2 h
    · exact he p.2 h
  have hcongr : (optPairs d).map (fun p => (p.1, pyStrip p.2)) = (optPairs d).map id := by
    apply List.map_congr_left
    intro a hamem
    rw [hmem a hamem]
    exact Prod.mk.eta
  rw [hcongr, List.map_id]

/- The resolve-then-default step on the canonical options field, followed by
   normalize_options, reproduces the canonical pairs (an absent/empty dict
   falls back to the empty default, which yields no pairs). -/
theorem options_orDefault (d : CanonQData)
    (ha : ∀ v, d.optA = some v → pyStrip v = v)
    (hb : ∀ v, d.optB = some v → pyStrip v = v)
    (hc : ∀ v, d.optC = some v → pyStrip v = v)
    (hd : ∀ v, d.optD = some v → pyStrip v = v)
    (he : ∀ v, d.optE = some v → pyStrip v = v) :
    normalize_options (orDefault
        (some (Val.dict ((optPairs d).map (fun p => (p.1, Val.str p.2)))))
        (Val.dict [])) = optPairs d := by
  by_cases hop : optPairs d = []
  · rw [hop]
    rfl
  · have htr : (Val.dict ((optPairs d).map (fun p => (p.1, Val.str p.2)))).truthy = true := by
      simp [Val.truthy, List.isEmpty_iff, hop]
    rw [orDefault, if_pos htr]
    rw [normalize_options_map d]
    exact optPairs_strip d ha hb hc hd he

/- The per-question transform reproduces every field of a canonical question
   document, except that the id is wrapped in literal double quotes; the
   positional index is irrelevant because the id field resolves. -/
theorem core_canonQ (d : CanonQData) (h : GoodQ d) (idx : Nat) :
    standardize_question_core (mkCanonQVal d).dictEntries idx = expectedQ d := by
  obtain ⟨⟨n, hn, hqid⟩, htext, hexpl, hqtopic, hqsub, ha, hb, hc, hdo, he,
    hans, hdiff, hexne, hexmem⟩ := h
  simp only [standardize_question_core]
  rw [fv_canon_qno d, fv_canon_text d, fv_canon_options d, fv_canon_answer d,
    fv_canon_expl d, fv_canon_diff d, fv_canon_qtopic d, fv_canon_qsub d, fv_canon_exam d]
  have hqne : d.qid ≠ "" := by
    rw [hqid]
    exact zfill3_ne_empty n hn
  have hqtr : (Val.str d.qid).truthy = true := by simp [Val.truthy, hqne]
  rw [show orDefault (some (Val.str d.qid)) (Val.str (natStr (idx + 1))) = Val.str d.qid
    from by rw [orDefault, if_pos hqtr]]
  rw [show pad_question_no (Val.str d.qid) = d.qid from by
    rw [hqid]; exact pad_canonical n hn]
  rw [options_orDefault d ha hb hc hdo he]
  rw [show optToVal (some (Val.str (ansStr d))) = Val.str (ansStr d) from rfl]
  rw [show ansStr d = String.intercalate ", "
    (d.answerLetters.map (fun c => "option " ++ (⟨[c]⟩ : String))) from rfl]
  rw [normalize_answer_fix d.answerLetters hans]
  rw [stripStr_orDefault d.text htext, stripStr_orDefault d.expl hexpl,
    stripStr_orDefault d.qtopic hqtopic, stripStr_orDefault d.qsub hqsub]
  rw [show optToVal (some (Val.str d.diff)) = Val.str d.diff from rfl]
  rw [normalize_difficulty_fix d.diff hdiff]
  rw [show optToVal (some (Val.str (examStr d))) = Val.str (examStr d) from rfl]
  rw [show examStr d = String.intercalate ", " d.examTags from rfl]
  rw [normalize_exam_fix d.examTags hexne hexmem]
  rfl

/- Mapping the per-question transform over the enumerated canonical question
   list reproduces the expected questions, from any start index. -/
theorem enumFrom_map_core :
    ∀ (qs : List CanonQData), (∀ d ∈ qs, GoodQ d) → ∀ k,
      ((qs.map mkCanonQVal).enumFrom k).map
        (fun p => standardize_question_core p.2.dictEntries p.1) = qs.map expectedQ := by
  intro qs
  induction qs with
  | nil => intro _ k; rfl
  | cons d ds ih =>
    intro hqs k
    simp only [List.map_cons]
    rw [List.enumFrom]
    simp only [List.map_cons]
    rw [core_canonQ d (hqs d (List.mem_cons_self _ _)) k]
    rw [ih (fun x hx => hqs x (List.mem_cons_of_mem _ hx)) (k + 1)]

/-- C2 (amended): standardize on an already-canonical document — canonical
field names and canonical value shapes (a nonempty trimmed topic, a trimmed
subtopic, and questions with zero-padded numeric ids, trimmed text fields,
trimmed option values, canonical upper-case answer letters, a canonical
difficulty and a nonempty list of canonical exam tags) — reproduces every
field value except the stored question id, which is additionally wrapped in
literal double-quote characters (expectedQ records exactly this: all fields
of the input question unchanged, questionNo quote-wrapped).  The
counterexample shows the id change, so standardize is not idempotent as
claimed; it is idempotent on every other field. -/
theorem claim_c2_amended (topic sub : String) (qs : List CanonQData)
    (htopic : pyStrip topic = topic) (htne : topic ≠ "")
    (hsub : pyStrip sub = sub) (hqs : ∀ d ∈ qs, GoodQ d) :
    standardize (mkCanonDoc topic sub qs) =
      Except.ok ⟨topic, sub, qs.length, qs.map expectedQ⟩ := by
  have hqres : questionsResolved (mkCanonDoc topic sub qs)
      = Val.list (qs.map mkCanonQVal) := by
    unfold questionsResolved
    rw [fv_canon_questions topic sub qs]
    cases qs with
    | nil => rfl
    | cons q qs2 =>
      rw [orDefault]
      rw [if_pos (show (Val.list ((q :: qs2).map mkCanonQVal)).truthy = true from rfl)]
  unfold standardize
  rw [hqres]
  dsimp only
  have hdicts : ∀ p ∈ (qs.map mkCanonQVal).enum, p.2.isDict = true := by
    intro p hp
    have hmem := snd_mem_of_mem_enum hp
    simp only [List.mem_map] at hmem
    obtain ⟨d, _, hdq⟩ := hmem
    rw [← hdq]
    rfl
  rw [mapM_questions_ok _ hdicts]
  dsimp only
  rw [fv_canon_topic topic sub qs, fv_canon_subtopic topic sub qs]
  have htop : stripStr (orDefault (some (Val.str topic)) (Val.str "Unknown Topic"))
      = topic := by
    rw [orDefault, if_pos (show (Val.str topic).truthy = true from by
      simp [Val.truthy, htne])]
    show pyStrip topic = topic
    exact htopic
  rw [htop, stripStr_orDefault sub hsub]
  rw [show (qs.map mkCanonQVal).enum = (qs.map mkCanonQVal).enumFrom 0 from rfl]
  rw [enumFrom_map_core qs hqs 0]
  rw [List.length_map]

/-- C2 witness: the amended theorem applied to a concrete canonical
one-question document (topic "Snowflake", id "007", options A/B, answer
"option A", difficulty "Easy", exam "Core"); every field is reproduced and
the id is stored quote-wrapped inside expectedQ. -/
theorem claim_c2_witness :
    standardize (mkCanonDoc "Snowflake" "Storage"
        [⟨"007", "What?", some "x", some "y", none, none, none, ['A'],
          "Because.", "Easy", "T", "S", ["Core"]⟩]) =
      Except.ok ⟨"Snowflake", "Storage", 1,
        [expectedQ ⟨"007", "What?", some "x", some "y", none, none, none, ['A'],
          "Because.", "Easy", "T", "S", ["Core"]⟩]⟩ :=
  claim_c2_amended "Snowflake" "Storage" _ (by decide) (by decide) (by decide)
    (by
      intro d hd
      simp only [List.mem_singleton] at hd
      subst hd
      exact ⟨⟨7, by decide, by decide⟩, by decide, by decide, by decide, by decide,
        fun v hv => by injection hv with h; rw [← h]; decide,
        fun v hv => by injection hv with h; rw [← h]; decide,
        fun v hv => Option.noConfusion hv,
        fun v hv => Option.noConfusion hv,
        fun v hv => Option.noConfusion hv,
        by decide, by decide, by decide, by decide⟩)
